import Mathlib

/-!
Verification of the task-lifecycle scheduler of the "Personal AI Employee"
repository (Bronze Tier: orchestrator.py and filesystem_watcher.py).

The development is organised as follows.

Part 1 models the Python string primitives the source relies on
(str.strip, str.split with and without maxsplit, str.partition,
str.lower, substring containment, pathlib stem/suffix) over List Char,
together with insertion-ordered string dictionaries (Python dict).

Part 2 embeds the string-level functions of the source:
parse_frontmatter, render_frontmatter, is_task_done, detect_tier,
_parse_claude_response, get_safe_path, get_safe_filename and
get_pending_tasks.

Part 3 embeds the completion engine (process_task,
_invoke_single_cycle, execute_with_retry, complete_task, fail_task) as
a state machine over a task record.  The task store (markdown files on
disk) is modeled as a record holding the frontmatter dictionary, the
body text and the transition-history rows; every store write of the
source becomes an explicit operation on that record, and every run
produces an event trace used to state the budget and ordering claims.

Part 4 states and proves the claims.
-/

set_option maxRecDepth 20000

set_option maxHeartbeats 2000000

abbrev Str := List Char

/-- Characters of a string literal, the working representation of Python
strings in this development. -/
def lit (s : String) : Str := s.data

/-- Whitespace characters stripped by Python str.strip(). -/
def pyIsSpace (c : Char) : Bool :=
  c = ' ' || c = '\t' || c = '\n' || c = '\r' || c = '\x0b' || c = '\x0c'

/-- Python s.strip(): remove leading and trailing whitespace. -/
def pyStrip (s : Str) : Str :=
  ((s.dropWhile pyIsSpace).reverse.dropWhile pyIsSpace).reverse

/-- Python s.strip(chars): remove leading and trailing characters drawn
from the given set. -/
def pyStripChars (cs : List Char) (s : Str) : Str :=
  ((s.dropWhile (fun c => cs.contains c)).reverse.dropWhile (fun c => cs.contains c)).reverse

/-- First occurrence of a (nonempty) separator inside a string: returns
the part before the separator and the part after it. -/
def findSub (sep : Str) : Str → Option (Str × Str)
  | [] => if sep.isEmpty then some ([], []) else none
  | c :: rest =>
    if sep.isPrefixOf (c :: rest) then some ([], (c :: rest).drop sep.length)
    else
      match findSub sep rest with
      | some (pre, post) => some (c :: pre, post)
      | none => none

/-- Python substring containment (needle in haystack). -/
def containsSub (needle hay : Str) : Bool := (findSub needle hay).isSome

/-- Python s.split(sep, maxsplit) for a nonempty separator. -/
def pySplitN (sep : Str) : Nat → Str → List Str
  | 0, s => [s]
  | Nat.succ n, s =>
    match findSub sep s with
    | none => [s]
    | some (pre, post) => pre :: pySplitN sep n post

/-- Python s.split(sep) for a one-character separator (no maxsplit). -/
def splitChar (sep : Char) : Str → List Str
  | [] => [[]]
  | c :: rest =>
    match splitChar sep rest with
    | [] => [[c]]
    | h :: t => if c = sep then [] :: h :: t else (c :: h) :: t

/-- Python s.partition(sep) for a one-character separator: part before
the first occurrence, whether it was found, and the part after it. -/
def partitionChar (sep : Char) : Str → Str × Bool × Str
  | [] => ([], false, [])
  | c :: rest =>
    if c = sep then ([], true, rest)
    else
      match partitionChar sep rest with
      | (pre, found, post) => (c :: pre, found, post)

/-- Python s.lower() (ASCII data in this code base). -/
def pyLower (s : Str) : Str := s.map Char.toLower

/-- Decimal digits of a natural number, Python str(n). -/
def natStr (n : Nat) : Str := Nat.toDigits 10 n

/-- Insertion-ordered string dictionary, as Python dict assignment
d[k] = v: replace in place when the key is present, else append. -/
def dictSet (m : List (Str × Str)) (k v : Str) : List (Str × Str) :=
  match m with
  | [] => [(k, v)]
  | (k', v') :: rest => if k' = k then (k, v) :: rest else (k', v') :: dictSet rest k v

/-- Python dict.update(other): apply each assignment in order. -/
def dictUpdate (m : List (Str × Str)) (updates : List (Str × Str)) : List (Str × Str) :=
  updates.foldl (fun acc kv => dictSet acc kv.1 kv.2) m

/-- Python dict.get(k): value of the first matching key, if any. -/
def dictGet (m : List (Str × Str)) (k : Str) : Option Str :=
  match m with
  | [] => none
  | (k', v) :: rest => if k' = k then some v else dictGet rest k

/-- Python dict.get(k, d). -/
def dictGetD (m : List (Str × Str)) (k d : Str) : Str := (dictGet m k).getD d

def threeDashes : Str := lit "---"

/-- One line of a frontmatter block, as handled in the loop body of
orchestrator.parse_frontmatter: on a line containing a colon, assign
metadata[key.strip()] = value.strip().strip(quote).strip(apostrophe). -/
def parseFMLine (m : List (Str × Str)) (line : Str) : List (Str × Str) :=
  if line.contains ':' then
    match partitionChar ':' line with
    | (key, _, value) =>
      dictSet m (pyStrip key) (pyStripChars ['\x27'] (pyStripChars ['"'] (pyStrip value)))
  else m

/-- Embedding of orchestrator.parse_frontmatter: extract the YAML
frontmatter dictionary and the body from markdown content. -/
def parse_frontmatter (content : Str) : List (Str × Str) × Str :=
  if threeDashes.isPrefixOf content then
    match pySplitN threeDashes 2 content with
    | _ :: p1 :: p2 :: _ =>
      ((splitChar '\n' (pyStrip p1)).foldl parseFMLine [], p2)
    | _ => ([], content)
  else ([], content)

/-- One rendered frontmatter line of orchestrator.render_frontmatter.
All metadata values of this model are strings, so the Python isinstance
guard is satisfied; a value containing a space or a comma is quoted. -/
def renderFMEntry (kv : Str × Str) : Str :=
  if kv.2.contains ' ' || kv.2.contains ',' then
    kv.1 ++ lit ": \"" ++ kv.2 ++ lit "\""
  else
    kv.1 ++ lit ": " ++ kv.2

/-- Embedding of orchestrator.render_frontmatter. -/
def render_frontmatter (m : List (Str × Str)) : Str :=
  List.intercalate (lit "\n") (threeDashes :: (m.map renderFMEntry ++ [threeDashes]))

/-- Embedding of orchestrator.is_task_done on file content: the task is
complete only when the parsed frontmatter status, stripped and
lowercased, equals done.  (The source also returns False when the file
is missing or unreadable; the engine model tracks existence separately.) -/
def is_task_done (content : Str) : Bool :=
  pyLower (pyStrip (dictGetD (parse_frontmatter content).1 (lit "status") [])) = lit "done"

def TIER_2_KEYWORDS : List Str :=
  [lit "install", lit "deploy", lit "execute code", lit "modify config", lit "run script",
   lit "change environment", lit "alter system", lit "modify production"]

def TIER_3_KEYWORDS : List Str :=
  [lit "send email", lit "send message", lit "slack", lit "webhook", lit "api call",
   lit "payment", lit "transfer", lit "invoice", lit "financial", lit "publish",
   lit "external", lit "notify client", lit "sms", lit "push notification"]

/-- Embedding of orchestrator.detect_tier. -/
def detect_tier (metadata : List (Str × Str)) (content : Str) : Nat :=
  let content_lower := pyLower content
  if TIER_3_KEYWORDS.any (fun k => containsSub k content_lower) then 3
  else if TIER_2_KEYWORDS.any (fun k => containsSub k content_lower) then 2
  else if dictGet metadata (lit "classification") = some (lit "plan") ∨
          dictGet metadata (lit "classification") = some (lit "skill") then 1
  else 0

/-- Result dictionary returned by Claude invocations, the keys set by
orchestrator._parse_claude_response. -/
structure ExecResult where
  status : Str
  summary : Str
  output : Str
  decisions : Str
  errors : Str
  remaining : Str
deriving DecidableEq

/-- Python line.split(colon, 1)[1] for a line known to contain a colon. -/
def splitColonRest (line : Str) : Str := (partitionChar ':' line).2.2

/-- One line of orchestrator._parse_claude_response's loop. -/
def parseRespLine (r : ExecResult) (rawLine : Str) : ExecResult :=
  let line := pyStrip rawLine
  if (lit "RESULT_STATUS:").isPrefixOf line then
    { r with status := pyLower (pyStrip (splitColonRest line)) }
  else if (lit "RESULT_SUMMARY:").isPrefixOf line then
    { r with summary := pyStrip (splitColonRest line) }
  else if (lit "RESULT_OUTPUT:").isPrefixOf line then
    { r with output := pyStrip (splitColonRest line) }
  else if (lit "RESULT_DECISIONS:").isPrefixOf line then
    { r with decisions := pyStrip (splitColonRest line) }
  else if (lit "RESULT_ERRORS:").isPrefixOf line then
    { r with errors := pyStrip (splitColonRest line) }
  else if (lit "RESULT_REMAINING:").isPrefixOf line then
    { r with remaining := pyStrip (splitColonRest line) }
  else r

/-- Embedding of orchestrator._parse_claude_response, including the
normalization that maps executor statuses success and completed to done. -/
def parse_claude_response (response_text : Str) : ExecResult :=
  let r0 : ExecResult :=
    { status := lit "in_progress", summary := [], output := response_text,
      decisions := [], errors := lit "None",
      remaining := lit "Unknown — could not parse RESULT_REMAINING" }
  let r1 := (splitChar '\n' response_text).foldl parseRespLine r0
  let r2 :=
    if r1.status = lit "done" ∨ r1.status = lit "success" ∨ r1.status = lit "completed"
    then { r1 with status := lit "done" } else r1
  if r2.summary = [] then { r2 with summary := response_text.take 200 } else r2

/-- Index of the last dot of a file name (Python name.rfind(dot)). -/
def rfindDot (name : Str) : Option Nat :=
  match name.reverse.findIdx? (fun c => c = '.') with
  | some j => some (name.length - 1 - j)
  | none => none

/-- pathlib suffix of a plain file name. -/
def pathSuffix (name : Str) : Str :=
  match rfindDot name with
  | some i => if 0 < i ∧ i < name.length - 1 then name.drop i else []
  | none => []

/-- pathlib stem of a plain file name. -/
def pathStem (name : Str) : Str :=
  match rfindDot name with
  | some i => if 0 < i ∧ i < name.length - 1 then name.take i else name
  | none => name

def collisionMsg : Str := lit "Filename collision overflow"

/-- Loop of orchestrator.get_safe_path: counter runs from 2 while
counter is at most 100, so the candidates carry suffixes _2 .. _100;
fuel counts the iterations left (99 at entry). -/
def getSafePathLoop (ex : Str → Bool) (stem ext : Str) : Nat → Nat → Except Str Str
  | 0, _ => Except.error collisionMsg
  | Nat.succ fuel, counter =>
    let candidate := stem ++ ('_' :: natStr counter) ++ ext
    if ex candidate then getSafePathLoop ex stem ext fuel (counter + 1)
    else Except.ok candidate

/-- Embedding of orchestrator.get_safe_path over an abstract existence
predicate on file names in the target directory. -/
def get_safe_path (ex : Str → Bool) (filename : Str) : Except Str Str :=
  if ex filename then getSafePathLoop ex (pathStem filename) (pathSuffix filename) 99 2
  else Except.ok filename

/-- Loop of filesystem_watcher.get_safe_filename: an unconditional loop
that increments the counter after each failed candidate and raises once
the counter passes 100, so it tries the same candidates _2 .. _100. -/
def getSafeFilenameLoop (ex : Str → Bool) (stem ext : Str) : Nat → Nat → Except Str Str
  | 0, _ => Except.error collisionMsg
  | Nat.succ fuel, counter =>
    let candidate := stem ++ ('_' :: natStr counter) ++ ext
    if ex candidate then
      if 100 < counter + 1 then Except.error collisionMsg
      else getSafeFilenameLoop ex stem ext fuel (counter + 1)
    else Except.ok candidate

/-- Embedding of filesystem_watcher.get_safe_filename. -/
def get_safe_filename (ex : Str → Bool) (base_name : Str) : Except Str Str :=
  if ex base_name then getSafeFilenameLoop ex (pathStem base_name) (pathSuffix base_name) 99 2
  else Except.ok base_name

def PRIORITY_ORDER_get (p : Str) : Nat :=
  if p = lit "P0" then 0
  else if p = lit "P1" then 1
  else if p = lit "P2" then 2
  else if p = lit "P3" then 3
  else 2

/-- Sort key of orchestrator.get_pending_tasks:
PRIORITY_ORDER.get(metadata.get(priority, P2), 2). -/
def taskKey (metadata : List (Str × Str)) : Nat :=
  PRIORITY_ORDER_get (dictGetD metadata (lit "priority") (lit "P2"))

/-- Filter phase of orchestrator.get_pending_tasks over a directory
listing of (file name, file content) in store order: keep markdown
files that are not escalations and whose status is actionable. -/
def pendingFilter (listing : List (Str × Str)) : List (Str × (List (Str × Str)) × Str) :=
  listing.filterMap (fun nc =>
    if pathSuffix nc.1 = lit ".md" then
      let metadata := (parse_frontmatter nc.2).1
      if dictGet metadata (lit "type") = some (lit "escalation") then none
      else
        let status := pyLower (dictGetD metadata (lit "status") (lit "ready"))
        if [lit "done", lit "in_progress", lit "completed", lit "blocked",
            lit "failed", lit "rejected"].contains status then none
        else some (nc.1, metadata, nc.2)
    else none)

/-- Embedding of orchestrator.get_pending_tasks: filter the listing,
then stable-sort by priority (Python list.sort with a key is a stable
sort; insertionSort over the non-strict key order realizes it). -/
def get_pending_tasks (listing : List (Str × Str)) : List (Str × (List (Str × Str)) × Str) :=
  List.insertionSort (fun a b => taskKey a.2.1 ≤ taskKey b.2.1) (pendingFilter listing)

def MAX_RETRIES : Nat := 2

def MAX_COMPLETION_CYCLES : Nat := 10

/-- Abstract wall clock: timestamps are incidental to every claim, so the
model uses a fixed timestamp string. -/
def tsNow : Str := lit "2026-02-16 00:00"

/-- One row of the append-only Transition History table of a task file
(timestamp column abstracted to the fixed clock). -/
structure HistRow where
  fromF : Str
  toF : Str
  action : Str
  actor : Str
deriving DecidableEq

/-- The task file as stored: existence at its pending-area path, the
frontmatter dictionary, the body text, and the transition-history rows. -/
structure TaskSt where
  fileExists : Bool
  meta : List (Str × Str)
  body : Str
  hist : List HistRow
deriving DecidableEq

/-- Events recorded while the completion engine runs; writes, history
appends, executor invocations, escalation and audit records are the
observable store effects, the rest are ghost markers for the loop
structure (attempt starts carry the persisted status at that moment). -/
inductive Ev where
  | write (updates : List (Str × Str))
  | histEv (action : Str)
  | invoke (n : Nat)
  | attemptStart (cycle attempt : Nat) (status : Str)
  | cycleStart (cycle : Nat)
  | escalateEv (severity : Str)
  | auditEv (status : Str)
  | finalizeEv (cycle : Nat)
  | failTaskEv (severity : Str) (attempts : Nat)
  | cooldownEv
deriving DecidableEq

/-- Engine state: the task record, the escalation records created so far
(their severities), and the event trace. -/
structure EngSt where
  task : TaskSt
  escalations : List Str
  trace : List Ev
deriving DecidableEq

/-- Embedding of orchestrator.update_task_frontmatter: read, merge the
updates into the frontmatter dictionary, write back (body untouched). -/
def update_task_frontmatter (s : EngSt) (u : List (Str × Str)) : EngSt :=
  { s with task := { s.task with meta := dictUpdate s.task.meta u },
           trace := s.trace ++ [Ev.write u] }

/-- Embedding of orchestrator.append_transition_history: append one row
to the Transition History table at the end of the file. -/
def append_transition_history (s : EngSt) (fromF toF action actor : Str) : EngSt :=
  { s with task := { s.task with hist := s.task.hist ++ [⟨fromF, toF, action, actor⟩] },
           trace := s.trace ++ [Ev.histEv action] }

/-- Embedding of orchestrator.write_escalation: create one escalation
record of the given severity in the pending area. -/
def write_escalation (s : EngSt) (severity : Str) : EngSt :=
  { s with escalations := s.escalations ++ [severity],
           trace := s.trace ++ [Ev.escalateEv severity] }

/-- Embedding of orchestrator.write_audit_log: audit records live outside
the task store, only the event is recorded. -/
def write_audit_log (s : EngSt) (status : Str) : EngSt :=
  { s with trace := s.trace ++ [Ev.auditEv status] }

/-- Append text to the task body (the result-section append of
complete_task). -/
def appendBody (s : EngSt) (t : Str) : EngSt :=
  { s with task := { s.task with body := s.task.body ++ t } }

/-- Text of one appended transition-history row. -/
def histRowText (r : HistRow) : Str :=
  lit "| " ++ tsNow ++ lit " | " ++ r.fromF ++ lit " | " ++ r.toF ++ lit " | " ++
    r.action ++ lit " | " ++ r.actor ++ lit " |\n"

/-- Full text of the task file as read from the store: rendered
frontmatter followed by the body and the appended history rows. -/
def contentOf (t : TaskSt) : Str :=
  render_frontmatter t.meta ++ t.body ++ (t.hist.map histRowText).flatten

/-- Engine-level reading of orchestrator.is_task_done: the file exists
and its persisted status field, stripped and lowercased, equals done.
Stated directly on the metadata record of the store model. -/
def is_task_done_st (t : TaskSt) : Bool :=
  t.fileExists && (pyLower (pyStrip (dictGetD t.meta (lit "status") [])) = lit "done")

/-- Behavior of one executor invocation: a returned result dictionary,
or an exception raised during the attempt (caught by the attempt-level
handler of execute_with_retry). -/
inductive ExecBeh where
  | returns (r : ExecResult)
  | raises (msg : Str)
deriving DecidableEq

/-- Outcome of the body of one attempt as seen by execute_with_retry. -/
inductive AttemptOut where
  | ok (r : ExecResult)
  | exn (msg : Str)
deriving DecidableEq

/-- Result dictionary returned by process_task on a tier halt. -/
def haltedResult (tier : Nat) : ExecResult :=
  { status := lit "halted",
    summary := lit "Tier " ++ natStr tier ++ lit " — awaiting approval",
    output := [], decisions := [], errors := [], remaining := [] }

/-- Embedding of orchestrator.process_task: mark in_progress, enforce the
tier gate (halting tiers 2 and 3 before any executor call), then invoke
the executor.  Skill resolution, memory-influence notes and prompt
construction touch no task state and are omitted. -/
def process_task (oracle : Nat → ExecBeh) (s : EngSt) (nInv : Nat)
    (metadata : List (Str × Str)) (content : Str) : EngSt × Nat × AttemptOut :=
  let s := update_task_frontmatter s [(lit "status", lit "in_progress"), (lit "started", tsNow)]
  let tier := detect_tier metadata content
  if 2 ≤ tier then
    let s := update_task_frontmatter s
      [(lit "status", lit "blocked"),
       (lit "blocked_reason", lit "Tier " ++ natStr tier ++ lit " — requires human approval")]
    let s := append_transition_history s (lit "/Needs_Action") (lit "/Needs_Action")
      (lit "block") (lit "orchestrator")
    let s := write_escalation s (if tier = 2 then lit "E2" else lit "E3")
    let s := write_audit_log s (lit "halted")
    (s, nInv, AttemptOut.ok (haltedResult tier))
  else
    let s := { s with trace := s.trace ++ [Ev.invoke nInv] }
    match oracle nInv with
    | ExecBeh.returns r => (s, nInv + 1, AttemptOut.ok r)
    | ExecBeh.raises msg => (s, nInv + 1, AttemptOut.exn msg)

/-- Embedding of orchestrator._invoke_single_cycle: run process_task,
then write status done if the executor claimed done, or persist the
remaining work and append a reprocess transition if it reported
in_progress. -/
def invoke_single_cycle (oracle : Nat → ExecBeh) (s : EngSt) (nInv : Nat)
    (metadata : List (Str × Str)) (content : Str) (cycle : Nat) : EngSt × Nat × AttemptOut :=
  match process_task oracle s nInv metadata content with
  | (s, n, AttemptOut.exn msg) => (s, n, AttemptOut.exn msg)
  | (s, n, AttemptOut.ok r) =>
    if r.status = lit "done" then
      (update_task_frontmatter s [(lit "status", lit "done")], n, AttemptOut.ok r)
    else if r.status = lit "in_progress" then
      let s := update_task_frontmatter s
        [(lit "status", lit "in_progress"), (lit "remaining_work", r.remaining.take 200),
         (lit "last_cycle", natStr cycle)]
      let s := append_transition_history s (lit "/Needs_Action") (lit "/Needs_Action")
        (lit "reprocess (cycle " ++ natStr cycle ++ lit ")") (lit "orchestrator")
      (s, n, AttemptOut.ok r)
    else (s, n, AttemptOut.ok r)

/-- Embedding of orchestrator.complete_task: write the authoritative done
metadata, append the complete transition, append the result section, and
move the file to the terminal area (reflection logging touches a memory
file outside the task store and is omitted). -/
def complete_task (s : EngSt) (result : Option ExecResult) (total_cycles : Nat) : EngSt :=
  let summary := (match result with
    | some r => r.summary
    | none => lit "Processed by orchestrator").take 200
  let s := update_task_frontmatter s
    [(lit "status", lit "done"), (lit "completed", tsNow),
     (lit "completion_cycles", natStr total_cycles), (lit "result_summary", summary)]
  let s := append_transition_history s (lit "/Needs_Action") (lit "/Done")
    (lit "complete") (lit "orchestrator")
  let s := appendBody s (lit "\n\n## Orchestrator Result\n")
  { s with task := { s.task with fileExists := false },
           trace := s.trace ++ [Ev.finalizeEv total_cycles] }

/-- Embedding of orchestrator.fail_task: mark failed, append the fail
transition, and escalate when the severity is E3 or E4. -/
def fail_task (s : EngSt) (error_msg : Str) (severity : Str) (attempts : Nat) : EngSt :=
  let s := update_task_frontmatter s
    [(lit "status", lit "failed"), (lit "error", error_msg.take 200),
     (lit "attempts", natStr attempts)]
  let s := append_transition_history s (lit "/Needs_Action") (lit "/Needs_Action")
    (lit "fail (" ++ severity ++ lit ")") (lit "orchestrator")
  let s := { s with trace := s.trace ++ [Ev.failTaskEv severity attempts] }
  if severity = lit "E3" ∨ severity = lit "E4" then write_escalation s severity else s

/-- Outcome of the inner attempt loop of one cycle. -/
inductive InnerOut where
  | haltedOut (s : EngSt) (nInv : Nat)
  | doneOut (s : EngSt) (nInv : Nat)
  | contOut (s : EngSt) (nInv : Nat) (lastErr : Str) (lastRes : Option ExecResult)

/-- Terminal disposition of one execute_with_retry run. -/
inductive RunEnd where
  | haltedRun
  | completedRun
  | exhausted
deriving DecidableEq

/-- Result of a run: final engine state, number of executor invocations
consumed, terminal disposition. -/
structure RunRes where
  s : EngSt
  nInv : Nat
  fin : RunEnd

/-- Ghost marker prepended to each attempt, recording the persisted
status of the task at the moment the attempt starts. -/
def ghostAttempt (s : EngSt) (cycle attempt : Nat) : EngSt :=
  { s with trace := s.trace ++
      [Ev.attemptStart cycle attempt (dictGetD s.task.meta (lit "status") [])] }

/-- Ghost marker prepended to each cycle. -/
def ghostCycle (s : EngSt) (cycle : Nat) : EngSt :=
  { s with trace := s.trace ++ [Ev.cycleStart cycle] }

/-- Inner attempt loop of orchestrator.execute_with_retry (the for loop
over attempts of one cycle).  fuel is the number of attempts still
allowed after the current one (MAX_RETRIES at cycle entry); each attempt
re-reads the task, invokes one cycle, and handles halt / failure /
authoritative completion exactly as the source does. -/
def runAttempts (oracle : Nat → ExecBeh) :
    Nat → Nat → Nat → EngSt → Nat → Str → Option ExecResult → InnerOut
  | 0, _, _, s, n, lastErr, lastRes => InnerOut.contOut s n lastErr lastRes
  | Nat.succ fuel, cycle, attempt, s, n, lastErr, lastRes =>
    let s := ghostAttempt s cycle attempt
    let metadata := s.task.meta
    let content := contentOf s.task
    match invoke_single_cycle oracle s n metadata content cycle with
    | (s, n, AttemptOut.exn msg) =>
      let lastErr := lit "Exception: " ++ msg
      let s := if 1 ≤ fuel then update_task_frontmatter s [(lit "status", lit "ready")] else s
      let s := write_audit_log s (lit "failed")
      runAttempts oracle fuel cycle (attempt + 1) s n lastErr lastRes
    | (s, n, AttemptOut.ok r) =>
      if r.status = lit "halted" then InnerOut.haltedOut s n
      else if r.status = lit "failed" then
        let lastErr := r.errors
        if 1 ≤ fuel then
          let s := update_task_frontmatter s [(lit "status", lit "ready")]
          runAttempts oracle fuel cycle (attempt + 1) s n lastErr (some r)
        else InnerOut.contOut s n lastErr (some r)
      else if is_task_done_st s.task then
        let s := complete_task s (some r) cycle
        let s := write_audit_log s (lit "success")
        InnerOut.doneOut s n
      else InnerOut.contOut s n lastErr (some r)

/-- Outer cycle loop of orchestrator.execute_with_retry.  The first
argument is the number of cycles left (MAX_COMPLETION_CYCLES at entry),
the second the current cycle number; exhaustion marks the task failed
with severity E3. -/
def runCycles (oracle : Nat → ExecBeh) :
    Nat → Nat → EngSt → Nat → Str → Option ExecResult → RunRes
  | 0, _, s, n, lastErr, _ =>
    let s := fail_task s
      (lit "Task not done after 10 cycles. Last error: " ++ lastErr) (lit "E3")
      MAX_COMPLETION_CYCLES
    let s := write_audit_log s (lit "failed")
    ⟨s, n, RunEnd.exhausted⟩
  | Nat.succ cyclesLeft, cycle, s, n, lastErr, lastRes =>
    let s := ghostCycle s cycle
    match runAttempts oracle (MAX_RETRIES + 1) cycle 1 s n lastErr lastRes with
    | InnerOut.haltedOut s n => ⟨s, n, RunEnd.haltedRun⟩
    | InnerOut.doneOut s n => ⟨s, n, RunEnd.completedRun⟩
    | InnerOut.contOut s n lastErr lastRes =>
      if s.task.fileExists && is_task_done_st s.task then
        let s := complete_task s lastRes cycle
        let s := write_audit_log s (lit "success")
        ⟨s, n, RunEnd.completedRun⟩
      else
        let s := if 0 < cyclesLeft then { s with trace := s.trace ++ [Ev.cooldownEv] } else s
        runCycles oracle cyclesLeft (cycle + 1) s n lastErr lastRes

/-- Embedding of orchestrator.execute_with_retry: the completion-driven
loop over a task whose file is present in the pending area. -/
def execute_with_retry (oracle : Nat → ExecBeh) (t : TaskSt) : RunRes :=
  runCycles oracle MAX_COMPLETION_CYCLES 1 ⟨t, [], []⟩ 0 [] none

/-- Freshly created task file in the pending area. -/
def initTask (meta : List (Str × Str)) (body : Str) : TaskSt :=
  { fileExists := true, meta := meta, body := body, hist := [] }

def inProgressResult : ExecResult :=
  { status := lit "in_progress", summary := lit "working", output := lit "out",
    decisions := [], errors := lit "None", remaining := lit "more" }

def failedResult : ExecResult :=
  { status := lit "failed", summary := lit "fail", output := [],
    decisions := [], errors := lit "boom", remaining := lit "None" }

def doneResult : ExecResult :=
  { status := lit "done", summary := lit "ok", output := lit "out",
    decisions := [], errors := lit "None", remaining := lit "None" }

def partialResult : ExecResult :=
  { status := lit "partial", summary := lit "part", output := [],
    decisions := [], errors := lit "None", remaining := lit "rest" }

def benignTask : TaskSt := initTask [(lit "status", lit "ready")] (lit "\nwrite a poem")

def tier3Task : TaskSt := initTask [(lit "status", lit "ready")] (lit "\nsend email to bob")

def tier2Task : TaskSt := initTask [(lit "status", lit "ready")] (lit "\nplease install the tool")

/-- Candidate file name with a numeric suffix, f-string stem_counter ext. -/
def suffixedName (stem ext : Str) (counter : Nat) : Str :=
  stem ++ ('_' :: natStr counter) ++ ext

theorem getSafePathLoop_ok_free (ex : Str → Bool) (stem ext : Str) :
    ∀ fuel counter p, getSafePathLoop ex stem ext fuel counter = Except.ok p →
      ex p = false := by
  intro fuel
  induction fuel with
  | zero => intro counter p h; simp [getSafePathLoop] at h
  | succ n ih =>
    intro counter p h
    simp only [getSafePathLoop] at h
    by_cases hex : ex (stem ++ ('_' :: natStr counter) ++ ext) = true
    · rw [if_pos hex] at h
      exact ih _ _ h
    · rw [if_neg hex] at h
      cases h
      exact Bool.not_eq_true _ |>.mp hex

theorem getSafePathLoop_error_iff (ex : Str → Bool) (stem ext : Str) :
    ∀ fuel counter,
      (getSafePathLoop ex stem ext fuel counter = Except.error collisionMsg ↔
        ∀ i, i < fuel → ex (suffixedName stem ext (counter + i)) = true) := by
  intro fuel
  induction fuel with
  | zero => intro counter; simp [getSafePathLoop]
  | succ n ih =>
    intro counter
    simp only [getSafePathLoop]
    by_cases hex : ex (stem ++ ('_' :: natStr counter) ++ ext) = true
    · rw [if_pos hex, ih]
      constructor
      · intro h i hi
        rcases i with _ | j
        · have h0 : counter + 0 = counter := by omega
          rw [h0]
          exact hex
        · have := h j (by omega)
          have hidx : counter + 1 + j = counter + (j + 1) := by omega
          rwa [hidx] at this
      · intro h i hi
        have := h (i + 1) (by omega)
        have hidx : counter + (i + 1) = counter + 1 + i := by omega
        rwa [hidx] at this
    · rw [if_neg hex]
      constructor
      · intro h; cases h
      · intro h
        have := h 0 (by omega)
        have h0 : counter + 0 = counter := by omega
        rw [h0] at this
        exact absurd this hex

theorem getSafeFilenameLoop_ok_free (ex : Str → Bool) (stem ext : Str) :
    ∀ fuel counter p, getSafeFilenameLoop ex stem ext fuel counter = Except.ok p →
      ex p = false := by
  intro fuel
  induction fuel with
  | zero => intro counter p h; simp [getSafeFilenameLoop] at h
  | succ n ih =>
    intro counter p h
    simp only [getSafeFilenameLoop] at h
    by_cases hex : ex (stem ++ ('_' :: natStr counter) ++ ext) = true
    · rw [if_pos hex] at h
      by_cases hc : 100 < counter + 1
      · rw [if_pos hc] at h; cases h
      · rw [if_neg hc] at h
        exact ih _ _ h
    · rw [if_neg hex] at h
      cases h
      exact Bool.not_eq_true _ |>.mp hex

theorem getSafeFilenameLoop_error_iff (ex : Str → Bool) (stem ext : Str) :
    ∀ fuel counter, counter + fuel = 101 →
      (getSafeFilenameLoop ex stem ext fuel counter = Except.error collisionMsg ↔
        ∀ i, i < fuel → ex (suffixedName stem ext (counter + i)) = true) := by
  intro fuel
  induction fuel with
  | zero => intro counter _; simp [getSafeFilenameLoop]
  | succ n ih =>
    intro counter hsum
    simp only [getSafeFilenameLoop]
    by_cases hex : ex (stem ++ ('_' :: natStr counter) ++ ext) = true
    · rw [if_pos hex]
      by_cases hc : 100 < counter + 1
      · have hn : n = 0 := by omega
        subst hn
        rw [if_pos hc]
        constructor
        · intro _ i hi
          have hi0 : i = 0 := by omega
          subst hi0
          have h0 : counter + 0 = counter := by omega
          rw [h0]
          exact hex
        · intro _; rfl
      · rw [if_neg hc, ih (counter + 1) (by omega)]
        constructor
        · intro h i hi
          rcases i with _ | j
          · have h0 : counter + 0 = counter := by omega
            rw [h0]
            exact hex
          · have := h j (by omega)
            have hidx : counter + 1 + j = counter + (j + 1) := by omega
            rwa [hidx] at this
        · intro h i hi
          have := h (i + 1) (by omega)
          have hidx : counter + (i + 1) = counter + 1 + i := by omega
          rwa [hidx] at this
    · rw [if_neg hex]
      constructor
      · intro h; cases h
      · intro h
        have := h 0 (by omega)
        have h0 : counter + 0 = counter := by omega
        rw [h0] at this
        exact absurd this hex

/-- Claim C7 — no overwrite with bounded collision resolution: neither
get_safe_path nor get_safe_filename ever returns the name of an existing
file; when the base name exists they try the suffixed candidates _2 up
to _100 in order, and they fail with the collision-overflow error
exactly when the base name and every one of those candidates exists. -/
theorem no_overwrite_bounded (ex : Str → Bool) (filename : Str) :
    (∀ p, get_safe_path ex filename = Except.ok p → ex p = false) ∧
    (get_safe_path ex filename = Except.error collisionMsg ↔
      ex filename = true ∧ ∀ c, 2 ≤ c → c ≤ 100 →
        ex (suffixedName (pathStem filename) (pathSuffix filename) c) = true) ∧
    (∀ p, get_safe_filename ex filename = Except.ok p → ex p = false) ∧
    (get_safe_filename ex filename = Except.error collisionMsg ↔
      ex filename = true ∧ ∀ c, 2 ≤ c → c ≤ 100 →
        ex (suffixedName (pathStem filename) (pathSuffix filename) c) = true) := by
  refine ⟨?_, ?_, ?_, ?_⟩
  · intro p h
    unfold get_safe_path at h
    by_cases hex : ex filename = true
    · rw [if_pos hex] at h
      exact getSafePathLoop_ok_free ex _ _ _ _ _ h
    · rw [if_neg hex] at h
      cases h
      exact Bool.not_eq_true _ |>.mp hex
  · unfold get_safe_path
    by_cases hex : ex filename = true
    · rw [if_pos hex, getSafePathLoop_error_iff]
      constructor
      · intro h
        refine ⟨hex, fun c h2 h100 => ?_⟩
        have := h (c - 2) (by omega)
        have hc : 2 + (c - 2) = c := by omega
        rwa [hc] at this
      · intro h i hi
        exact h.2 (2 + i) (by omega) (by omega)
    · rw [if_neg hex]
      constructor
      · intro h; cases h
      · intro h; exact absurd h.1 hex
  · intro p h
    unfold get_safe_filename at h
    by_cases hex : ex filename = true
    · rw [if_pos hex] at h
      exact getSafeFilenameLoop_ok_free ex _ _ _ _ _ h
    · rw [if_neg hex] at h
      cases h
      exact Bool.not_eq_true _ |>.mp hex
  · unfold get_safe_filename
    by_cases hex : ex filename = true
    · rw [if_pos hex, getSafeFilenameLoop_error_iff ex _ _ 99 2 (by omega)]
      constructor
      · intro h
        refine ⟨hex, fun c h2 h100 => ?_⟩
        have := h (c - 2) (by omega)
        have hc : 2 + (c - 2) = c := by omega
        rwa [hc] at this
      · intro h i hi
        exact h.2 (2 + i) (by omega) (by omega)
    · rw [if_neg hex]
      constructor
      · intro h; cases h
      · intro h; exact absurd h.1 hex

def exWitness : Str → Bool := fun n => n = lit "t.md"

/-- Witness for C7: with only t.md present, get_safe_path returns the
fresh name t_2.md and that name does not exist. -/
theorem no_overwrite_bounded_witness :
    get_safe_path exWitness (lit "t.md") = Except.ok (lit "t_2.md") ∧
      exWitness (lit "t_2.md") = false :=
  ⟨rfl, (no_overwrite_bounded exWitness (lit "t.md")).1 (lit "t_2.md") rfl⟩

theorem filter_orderedInsert_eq {α : Type} (key : α → Nat) (v : Nat) (x : α) (l : List α)
    (hx : key x = v) :
    (List.orderedInsert (fun a b => key a ≤ key b) x l).filter (fun a => key a == v) =
      x :: l.filter (fun a => key a == v) := by
  induction l with
  | nil => simp [List.orderedInsert, hx]
  | cons y t ih =>
    simp only [List.orderedInsert]
    by_cases hr : key x ≤ key y
    · rw [if_pos hr]
      simp [List.filter_cons, hx]
    · rw [if_neg hr]
      have hy : key y ≠ v := by omega
      simp only [List.filter_cons, beq_iff_eq]
      rw [if_neg (by simpa using hy), if_neg (by simpa using hy)]
      exact ih

theorem filter_orderedInsert_ne {α : Type} (key : α → Nat) (v : Nat) (x : α) (l : List α)
    (hx : key x ≠ v) :
    (List.orderedInsert (fun a b => key a ≤ key b) x l).filter (fun a => key a == v) =
      l.filter (fun a => key a == v) := by
  induction l with
  | nil => simp [List.orderedInsert, hx]
  | cons y t ih =>
    simp only [List.orderedInsert]
    by_cases hr : key x ≤ key y
    · rw [if_pos hr]
      simp [List.filter_cons, hx]
    · rw [if_neg hr]
      simp only [List.filter_cons]
      rw [ih]

theorem filter_insertionSort_stable {α : Type} (key : α → Nat) (v : Nat) (l : List α) :
    (List.insertionSort (fun a b => key a ≤ key b) l).filter (fun a => key a == v) =
      l.filter (fun a => key a == v) := by
  induction l with
  | nil => rfl
  | cons x t ih =>
    simp only [List.insertionSort]
    by_cases hx : key x = v
    · rw [filter_orderedInsert_eq key v x _ hx, ih]
      simp [List.filter_cons, hx]
    · rw [filter_orderedInsert_ne key v x _ hx, ih]
      simp [List.filter_cons, hx]

theorem sorted_insertionSort_key {α : Type} (key : α → Nat) (l : List α) :
    List.Sorted (fun a b => key a ≤ key b) (List.insertionSort (fun a b => key a ≤ key b) l) := by
  haveI : IsTotal α (fun a b => key a ≤ key b) := ⟨fun a b => Nat.le_total _ _⟩
  haveI : IsTrans α (fun a b => key a ≤ key b) := ⟨fun _ _ _ hab hbc => Nat.le_trans hab hbc⟩
  exact List.sorted_insertionSort _ _

def exampleListing : List (Str × Str) :=
  [(lit "t1.md", lit "---\npriority: P2\n---\nalpha"),
   (lit "t2.md", lit "---\npriority: P0\n---\nbeta"),
   (lit "t3.md", lit "---\npriority: P3\n---\ngamma"),
   (lit "t4.md", lit "---\npriority: P1\n---\ndelta")]

/-- Claim C5 — priority ordering: get_pending_tasks returns the filtered
listing sorted by priority rank P0 before P1 before P2 before P3 (a task
with no or unknown priority ranks as P2), the sort is stable (for every
rank, the tasks of that rank appear in their original store listing
order), and the listing with priorities P2, P0, P3, P1 dispatches as
P0, P1, P2, P3. -/
theorem priority_ordering :
    (∀ listing, List.Sorted (fun a b => taskKey a.2.1 ≤ taskKey b.2.1)
        (get_pending_tasks listing)) ∧
    (∀ listing v, (get_pending_tasks listing).filter (fun a => taskKey a.2.1 == v) =
        (pendingFilter listing).filter (fun a => taskKey a.2.1 == v)) ∧
    (∀ m, dictGet m (lit "priority") = none → taskKey m = 2) ∧
    (∀ m p, dictGet m (lit "priority") = some p →
      p ≠ lit "P0" → p ≠ lit "P1" → p ≠ lit "P2" → p ≠ lit "P3" → taskKey m = 2) ∧
    ((get_pending_tasks exampleListing).map
        (fun a => dictGetD a.2.1 (lit "priority") (lit "P2")) =
      [lit "P0", lit "P1", lit "P2", lit "P3"]) := by
  refine ⟨?_, ?_, ?_, ?_, by decide⟩
  · intro listing
    exact sorted_insertionSort_key (fun a => taskKey a.2.1) (pendingFilter listing)
  · intro listing v
    exact filter_insertionSort_stable (fun a => taskKey a.2.1) v (pendingFilter listing)
  · intro m h
    unfold taskKey dictGetD
    rw [h]
    decide
  · intro m p h h0 h1 h2 h3
    unfold taskKey dictGetD
    rw [h]
    simp only [Option.getD_some]
    unfold PRIORITY_ORDER_get
    rw [if_neg h0, if_neg h1, if_neg h2, if_neg h3]

/-- Witness for C5: a metadata record with the unknown priority P9 ranks
as P2 (rank 2), by the theorem. -/
theorem priority_ordering_witness : taskKey [(lit "priority", lit "P9")] = 2 :=
  priority_ordering.2.2.2.1 [(lit "priority", lit "P9")] (lit "P9") rfl
    (by decide) (by decide) (by decide) (by decide)

theorem dictGet_dictSet_self (m : List (Str × Str)) (k v : Str) :
    dictGet (dictSet m k v) k = some v := by
  induction m with
  | nil => simp [dictSet, dictGet]
  | cons kv rest ih =>
    rcases kv with ⟨k', v'⟩
    simp only [dictSet]
    by_cases h : k' = k
    · subst h; simp [dictGet]
    · rw [if_neg h]
      simp only [dictGet]
      rw [if_neg h]
      exact ih

theorem dictGet_dictSet_ne (m : List (Str × Str)) (k' v k : Str) (h : k' ≠ k) :
    dictGet (dictSet m k' v) k = dictGet m k := by
  induction m with
  | nil => simp [dictSet, dictGet, h]
  | cons kv rest ih =>
    rcases kv with ⟨a, b⟩
    simp only [dictSet]
    by_cases ha : a = k'
    · subst ha
      rw [if_pos rfl]
      simp only [dictGet]
      rw [if_neg h, if_neg h]
    · rw [if_neg ha]
      simp only [dictGet]
      by_cases hak : a = k
      · rw [if_pos hak, if_pos hak]
      · rw [if_neg hak, if_neg hak]
        exact ih

def blockRow : HistRow :=
  ⟨lit "/Needs_Action", lit "/Needs_Action", lit "block", lit "orchestrator"⟩

/-- Severity written by the tier halt of process_task: E2 for tier 2 and
E3 otherwise (hence E3 for tier 3). -/
def tierSev (tier : Nat) : Str := if tier = 2 then lit "E2" else lit "E3"

def haltUpd1 : List (Str × Str) := [(lit "status", lit "in_progress"), (lit "started", tsNow)]

def haltUpd2 (tier : Nat) : List (Str × Str) :=
  [(lit "status", lit "blocked"),
   (lit "blocked_reason", lit "Tier " ++ natStr tier ++ lit " — requires human approval")]

/-- Engine state after the tier-halt branch of process_task. -/
def haltEngSt (s : EngSt) (tier : Nat) : EngSt :=
  { task := { fileExists := s.task.fileExists,
              meta := dictUpdate (dictUpdate s.task.meta haltUpd1) (haltUpd2 tier),
              body := s.task.body,
              hist := s.task.hist ++ [blockRow] },
    escalations := s.escalations ++ [tierSev tier],
    trace := s.trace ++ [Ev.write haltUpd1, Ev.write (haltUpd2 tier), Ev.histEv (lit "block"),
                         Ev.escalateEv (tierSev tier), Ev.auditEv (lit "halted")] }

theorem process_task_tier_halt (oracle : Nat → ExecBeh) (s : EngSt) (nInv : Nat)
    (metadata : List (Str × Str)) (content : Str)
    (h2 : 2 ≤ detect_tier metadata content) :
    process_task oracle s nInv metadata content =
      (haltEngSt s (detect_tier metadata content), nInv,
        AttemptOut.ok (haltedResult (detect_tier metadata content))) := by
  unfold process_task
  rw [if_pos h2]
  unfold haltEngSt haltUpd1 haltUpd2 blockRow tierSev
  simp [update_task_frontmatter, append_transition_history, write_escalation, write_audit_log,
        List.append_assoc]

theorem haltedResult_status (tier : Nat) : (haltedResult tier).status = lit "halted" := rfl

theorem invoke_single_cycle_tier_halt (oracle : Nat → ExecBeh) (s : EngSt) (nInv : Nat)
    (metadata : List (Str × Str)) (content : Str) (cycle : Nat)
    (h2 : 2 ≤ detect_tier metadata content) :
    invoke_single_cycle oracle s nInv metadata content cycle =
      (haltEngSt s (detect_tier metadata content), nInv,
        AttemptOut.ok (haltedResult (detect_tier metadata content))) := by
  simp only [invoke_single_cycle]
  rw [process_task_tier_halt oracle s nInv metadata content h2]
  rfl

theorem runAttempts_tier_halt (oracle : Nat → ExecBeh) (fuel cycle attempt : Nat) (s : EngSt)
    (n : Nat) (lastErr : Str) (lastRes : Option ExecResult)
    (h2 : 2 ≤ detect_tier s.task.meta (contentOf s.task)) :
    runAttempts oracle (Nat.succ fuel) cycle attempt s n lastErr lastRes =
      InnerOut.haltedOut
        (haltEngSt (ghostAttempt s cycle attempt) (detect_tier s.task.meta (contentOf s.task)))
        n := by
  simp only [runAttempts]
  rw [invoke_single_cycle_tier_halt oracle (ghostAttempt s cycle attempt) n
    (ghostAttempt s cycle attempt).task.meta (contentOf (ghostAttempt s cycle attempt).task)
    cycle h2]
  rfl

theorem runCycles_tier_halt (oracle : Nat → ExecBeh) (cyclesLeft cycle : Nat) (s : EngSt)
    (n : Nat) (lastErr : Str) (lastRes : Option ExecResult)
    (h2 : 2 ≤ detect_tier s.task.meta (contentOf s.task)) :
    runCycles oracle (Nat.succ cyclesLeft) cycle s n lastErr lastRes =
      ⟨haltEngSt (ghostAttempt (ghostCycle s cycle) cycle 1)
          (detect_tier s.task.meta (contentOf s.task)),
        n, RunEnd.haltedRun⟩ := by
  simp only [runCycles]
  rw [show MAX_RETRIES + 1 = Nat.succ 2 from rfl]
  rw [runAttempts_tier_halt oracle 2 cycle 1 (ghostCycle s cycle) n lastErr lastRes h2]
  rfl

/-- Claim C4 (amended) — tier halt: a task whose tier is detected at 2 or
higher is blocked with zero executor invocations, one block transition is
appended, and exactly one escalation record is created; its severity is
E3 for a tier-3 detection and E2 for a tier-2 detection (the source
writes E2, not E3, for tier 2). -/
theorem tier_halt_blocks (oracle : Nat → ExecBeh) (t : TaskSt)
    (h2 : 2 ≤ detect_tier t.meta (contentOf t)) :
    (execute_with_retry oracle t).fin = RunEnd.haltedRun ∧
    (execute_with_retry oracle t).nInv = 0 ∧
    (∀ k, Ev.invoke k ∉ (execute_with_retry oracle t).s.trace) ∧
    (execute_with_retry oracle t).s.escalations = [tierSev (detect_tier t.meta (contentOf t))] ∧
    dictGet (execute_with_retry oracle t).s.task.meta (lit "status") = some (lit "blocked") ∧
    (execute_with_retry oracle t).s.task.hist = t.hist ++ [blockRow] := by
  have hrun : execute_with_retry oracle t =
      ⟨haltEngSt (ghostAttempt (ghostCycle ⟨t, [], []⟩ 1) 1 1)
          (detect_tier t.meta (contentOf t)),
        0, RunEnd.haltedRun⟩ := by
    unfold execute_with_retry
    exact runCycles_tier_halt oracle 9 1 ⟨t, [], []⟩ 0 [] none h2
  rw [hrun]
  refine ⟨rfl, rfl, ?_, rfl, ?_, rfl⟩
  · intro k
    simp [haltEngSt, ghostAttempt, ghostCycle]
  · show dictGet (dictUpdate (dictUpdate t.meta haltUpd1) (haltUpd2 _)) (lit "status") =
      some (lit "blocked")
    unfold haltUpd2 dictUpdate
    simp only [List.foldl]
    rw [dictGet_dictSet_ne _ _ _ _ (by decide), dictGet_dictSet_self]

/-- Counterexample for C4 as stated: a task whose content contains the
tier-2 keyword install is halted, but its single escalation record has
severity E2, not the claimed E3. -/
theorem tier_halt_counterexample :
    detect_tier tier2Task.meta (contentOf tier2Task) = 2 ∧
    (execute_with_retry (fun _ => ExecBeh.returns inProgressResult) tier2Task).s.escalations =
      [lit "E2"] ∧ lit "E2" ≠ lit "E3" :=
  ⟨by decide, by decide!, by decide⟩

/-- Witness for C4 (amended): a task containing the tier-3 keyword is
halted with zero invocations and one escalation of severity E3. -/
theorem tier_halt_blocks_witness :
    (execute_with_retry (fun _ => ExecBeh.returns inProgressResult) tier3Task).fin =
        RunEnd.haltedRun ∧
      (execute_with_retry (fun _ => ExecBeh.returns inProgressResult) tier3Task).nInv = 0 ∧
      (execute_with_retry (fun _ => ExecBeh.returns inProgressResult) tier3Task).s.escalations =
        [lit "E3"] := by
  have h := tier_halt_blocks (fun _ => ExecBeh.returns inProgressResult) tier3Task (by decide)
  have h3 : detect_tier tier3Task.meta (contentOf tier3Task) = 3 := by decide
  refine ⟨h.1, h.2.1, ?_⟩
  have he := h.2.2.2.1
  rw [h3] at he
  simpa [tierSev] using he

def respSuccess : Str := lit "RESULT_STATUS: Success\nRESULT_SUMMARY: finished"

def respCompleted : Str := lit "RESULT_STATUS: completed\nRESULT_SUMMARY: finished"

def normOracle : Nat → ExecBeh := fun _ => ExecBeh.returns (parse_claude_response respSuccess)

/-- Claim C10 — implicit executor-status normalization: the response
parser maps the executor status strings success (case-insensitively) and
completed to done; feeding such a response through the engine makes it
write status done into the task file and finalize in cycle 1, even
though the file-level check is_task_done accepts only the literal
metadata value done, not success or completed. -/
theorem executor_status_normalization :
    (parse_claude_response respSuccess).status = lit "done" ∧
    (parse_claude_response respCompleted).status = lit "done" ∧
    (execute_with_retry normOracle benignTask).fin = RunEnd.completedRun ∧
    Ev.write [(lit "status", lit "done")] ∈ (execute_with_retry normOracle benignTask).s.trace ∧
    Ev.finalizeEv 1 ∈ (execute_with_retry normOracle benignTask).s.trace ∧
    dictGet (execute_with_retry normOracle benignTask).s.task.meta (lit "status") =
      some (lit "done") ∧
    is_task_done (lit "---\nstatus: success\n---\nx") = false ∧
    is_task_done (lit "---\nstatus: completed\n---\nx") = false ∧
    is_task_done (lit "---\nstatus: done\n---\nx") = true := by
  decide!

def completeRow : HistRow :=
  ⟨lit "/Needs_Action", lit "/Done", lit "complete", lit "orchestrator"⟩

def failRow (severity : Str) : HistRow :=
  ⟨lit "/Needs_Action", lit "/Needs_Action", lit "fail (" ++ severity ++ lit ")",
   lit "orchestrator"⟩

theorem update_task_frontmatter_hist (s : EngSt) (u : List (Str × Str)) :
    (update_task_frontmatter s u).task.hist = s.task.hist := rfl

theorem append_transition_history_hist (s : EngSt) (a b c d : Str) :
    (append_transition_history s a b c d).task.hist = s.task.hist ++ [⟨a, b, c, d⟩] := rfl

theorem complete_task_hist (s : EngSt) (r : Option ExecResult) (tc : Nat) :
    (complete_task s r tc).task.hist = s.task.hist ++ [completeRow] := rfl

theorem fail_task_hist (s : EngSt) (e sev : Str) (a : Nat) :
    (fail_task s e sev a).task.hist = s.task.hist ++ [failRow sev] := by
  unfold fail_task
  split
  · rfl
  · rfl

/-- State carried by an inner-loop outcome. -/
def innerSt : InnerOut → EngSt
  | InnerOut.haltedOut s _ => s
  | InnerOut.doneOut s _ => s
  | InnerOut.contOut s _ _ _ => s

theorem process_task_hist (oracle : Nat → ExecBeh) (s : EngSt) (n : Nat)
    (m : List (Str × Str)) (c : Str) :
    s.task.hist <+: (process_task oracle s n m c).1.task.hist := by
  simp only [process_task]
  split
  · exact List.prefix_append _ _
  · split
    · exact List.prefix_rfl
    · exact List.prefix_rfl

theorem invoke_single_cycle_hist (oracle : Nat → ExecBeh) (s : EngSt) (n : Nat)
    (m : List (Str × Str)) (c : Str) (cycle : Nat) :
    s.task.hist <+: (invoke_single_cycle oracle s n m c cycle).1.task.hist := by
  unfold invoke_single_cycle
  rcases hpt : process_task oracle s n m c with ⟨s1, n1, out⟩
  have h1 : s.task.hist <+: s1.task.hist := by
    have := process_task_hist oracle s n m c
    rwa [hpt] at this
  rcases out with r | msg
  · simp only []
    split
    · exact h1
    · split
      · refine h1.trans ?_
        exact List.prefix_append _ _
      · exact h1
  · exact h1

theorem runAttempts_hist (oracle : Nat → ExecBeh) :
    ∀ fuel cycle attempt s n lastErr lastRes,
      s.task.hist <+:
        (innerSt (runAttempts oracle fuel cycle attempt s n lastErr lastRes)).task.hist := by
  intro fuel
  induction fuel with
  | zero => intro cycle attempt s n le lr; exact List.prefix_rfl
  | succ f ih =>
    intro cycle attempt s n le lr
    simp only [runAttempts]
    rcases hinv : invoke_single_cycle oracle (ghostAttempt s cycle attempt) n
      (ghostAttempt s cycle attempt).task.meta
      (contentOf (ghostAttempt s cycle attempt).task) cycle with ⟨s1, n1, out⟩
    have h1 : s.task.hist <+: s1.task.hist := by
      have := invoke_single_cycle_hist oracle (ghostAttempt s cycle attempt) n
        (ghostAttempt s cycle attempt).task.meta
        (contentOf (ghostAttempt s cycle attempt).task) cycle
      rwa [hinv] at this
    rcases out with r | msg
    · simp only []
      split
      · exact h1
      · split
        · split
          · exact h1.trans (ih cycle (attempt + 1)
              (update_task_frontmatter s1 [(lit "status", lit "ready")]) n1 r.errors (some r))
          · exact h1
        · split
          · refine h1.trans ?_
            simp only [write_audit_log, complete_task_hist]
            exact List.prefix_append _ _
          · exact h1
    · simp only []
      split
      · exact h1.trans (ih cycle (attempt + 1)
          (write_audit_log (update_task_frontmatter s1 [(lit "status", lit "ready")])
            (lit "failed")) n1 (lit "Exception: " ++ msg) lr)
      · exact h1.trans (ih cycle (attempt + 1)
          (write_audit_log s1 (lit "failed")) n1 (lit "Exception: " ++ msg) lr)

theorem runCycles_hist (oracle : Nat → ExecBeh) :
    ∀ cyclesLeft cycle s n lastErr lastRes,
      s.task.hist <+:
        (runCycles oracle cyclesLeft cycle s n lastErr lastRes).s.task.hist := by
  intro cyclesLeft
  induction cyclesLeft with
  | zero =>
    intro cycle s n le lr
    simp only [runCycles, write_audit_log, fail_task_hist]
    exact List.prefix_append _ _
  | succ cl ih =>
    intro cycle s n le lr
    simp only [runCycles]
    rcases hra : runAttempts oracle (MAX_RETRIES + 1) cycle 1 (ghostCycle s cycle) n le lr
      with ⟨s1, n1⟩ | ⟨s1, n1⟩ | ⟨s1, n1, le1, lr1⟩
    · have := runAttempts_hist oracle (MAX_RETRIES + 1) cycle 1 (ghostCycle s cycle) n le lr
      rwa [hra] at this
    · have := runAttempts_hist oracle (MAX_RETRIES + 1) cycle 1 (ghostCycle s cycle) n le lr
      rwa [hra] at this
    · have h1 : s.task.hist <+: s1.task.hist := by
        have := runAttempts_hist oracle (MAX_RETRIES + 1) cycle 1 (ghostCycle s cycle) n le lr
        rwa [hra] at this
      simp only []
      split
      · refine h1.trans ?_
        simp only [write_audit_log, complete_task_hist]
        exact List.prefix_append _ _
      · refine h1.trans ?_
        split
        · exact ih (cycle + 1) { s1 with trace := s1.trace ++ [Ev.cooldownEv] } n1 le1 lr1
        · exact ih (cycle + 1) s1 n1 le1 lr1

/-- Claim C6 (amended) — transition-history monotonicity: every store
operation of the core preserves the existing transition-history rows
unchanged and in order, so the history observed at a point of a run is a
prefix, not necessarily strict, of the history observed at any later
point; it is strict exactly when a transition record was appended in
between (a frontmatter update alone leaves the history equal). -/
theorem history_monotonic :
    (∀ s u, (update_task_frontmatter s u).task.hist = s.task.hist) ∧
    (∀ s a b c d, (append_transition_history s a b c d).task.hist =
      s.task.hist ++ [⟨a, b, c, d⟩]) ∧
    (∀ s r tc, (complete_task s r tc).task.hist = s.task.hist ++ [completeRow]) ∧
    (∀ s e sev a, (fail_task s e sev a).task.hist = s.task.hist ++ [failRow sev]) ∧
    (∀ (oracle : Nat → ExecBeh) (t : TaskSt),
      t.hist <+: (execute_with_retry oracle t).s.task.hist) :=
  ⟨update_task_frontmatter_hist, append_transition_history_hist, complete_task_hist,
   fail_task_hist,
   fun oracle t => runCycles_hist oracle MAX_COMPLETION_CYCLES 1 ⟨t, [], []⟩ 0 [] none⟩

def histWitnessSt : EngSt :=
  ⟨⟨true, [(lit "status", lit "ready")], lit "b", [blockRow]⟩, [], []⟩

/-- Counterexample for C6 as stated: a frontmatter update leaves the
transition history equal, and a sequence is never a strict prefix of
itself, so the observed history is not always a strict prefix at a
later time. -/
theorem history_strict_counterexample :
    (update_task_frontmatter histWitnessSt [(lit "note", lit "x")]).task.hist =
        histWitnessSt.task.hist ∧
      ¬(histWitnessSt.task.hist <+:
          (update_task_frontmatter histWitnessSt [(lit "note", lit "x")]).task.hist ∧
        histWitnessSt.task.hist ≠
          (update_task_frontmatter histWitnessSt [(lit "note", lit "x")]).task.hist) :=
  ⟨rfl, fun hc => hc.2 rfl⟩

/-- An event that writes the authoritative completion marker: a
frontmatter write whose updates set the status field to done. -/
def isDoneWriteEv : Ev → Bool
  | Ev.write u => u.contains (lit "status", lit "done")
  | _ => false

/-- Persisted status field of the store model. -/
def statusOf (s : EngSt) : Str := dictGetD s.task.meta (lit "status") []

theorem dictGet_foldl_ne (rest : List (Str × Str)) (k : Str)
    (h : ∀ kv ∈ rest, kv.1 ≠ k) :
    ∀ m, dictGet (rest.foldl (fun acc kv => dictSet acc kv.1 kv.2) m) k = dictGet m k := by
  induction rest with
  | nil => intro m; rfl
  | cons a restl ih =>
    intro m
    simp only [List.foldl]
    rw [ih (fun kv hkv => h kv (List.mem_cons_of_mem a hkv))]
    exact dictGet_dictSet_ne m a.1 a.2 k (h a (List.mem_cons_self a restl))

theorem statusOf_update (s : EngSt) (v : Str) (rest : List (Str × Str))
    (h : ∀ kv ∈ rest, kv.1 ≠ lit "status") :
    statusOf (update_task_frontmatter s ((lit "status", v) :: rest)) = v := by
  unfold statusOf update_task_frontmatter dictGetD dictUpdate
  simp only [List.foldl]
  rw [dictGet_foldl_ne rest (lit "status") h, dictGet_dictSet_self]
  rfl

/-- A status field not equal to done, however stripped and lowercased,
makes the authoritative check fail. -/
theorem is_task_done_st_false (t : TaskSt)
    (h : pyLower (pyStrip (dictGetD t.meta (lit "status") [])) ≠ lit "done") :
    is_task_done_st t = false := by
  unfold is_task_done_st
  simp [h]

/-- Outcome of one executor behavior as seen by the attempt body. -/
def behToOut : ExecBeh → AttemptOut
  | ExecBeh.returns r => AttemptOut.ok r
  | ExecBeh.raises msg => AttemptOut.exn msg

/-- Engine state after the non-halt prefix of process_task: the
in_progress/started write followed by the executor invocation. -/
def invSt (s : EngSt) (n : Nat) : EngSt :=
  { task := { fileExists := s.task.fileExists, meta := dictUpdate s.task.meta haltUpd1,
              body := s.task.body, hist := s.task.hist },
    escalations := s.escalations,
    trace := s.trace ++ [Ev.write haltUpd1, Ev.invoke n] }

theorem process_task_no_halt (oracle : Nat → ExecBeh) (s : EngSt) (n : Nat)
    (m : List (Str × Str)) (c : Str) (h : detect_tier m c < 2) :
    process_task oracle s n m c = (invSt s n, n + 1, behToOut (oracle n)) := by
  simp only [process_task]
  rw [if_neg (by omega)]
  rcases ho : oracle n with r | msg <;>
    simp [behToOut, invSt, haltUpd1, update_task_frontmatter, List.append_assoc]

def ipUpd (r : ExecResult) (cycle : Nat) : List (Str × Str) :=
  [(lit "status", lit "in_progress"), (lit "remaining_work", r.remaining.take 200),
   (lit "last_cycle", natStr cycle)]

def reprocessRow (cycle : Nat) : HistRow :=
  ⟨lit "/Needs_Action", lit "/Needs_Action",
   lit "reprocess (cycle " ++ natStr cycle ++ lit ")", lit "orchestrator"⟩

def isCycleStartEv : Ev → Bool
  | Ev.cycleStart _ => true
  | _ => false

def isFinalizeEv : Ev → Bool
  | Ev.finalizeEv _ => true
  | _ => false

theorem statusOf_invSt (s : EngSt) (n : Nat) : statusOf (invSt s n) = lit "in_progress" := by
  unfold statusOf invSt dictGetD haltUpd1 dictUpdate
  simp only [List.foldl]
  rw [dictGet_dictSet_ne _ _ _ _ (by decide), dictGet_dictSet_self]
  rfl

theorem statusOf_ready (s : EngSt) :
    statusOf (update_task_frontmatter s [(lit "status", lit "ready")]) = lit "ready" :=
  statusOf_update s (lit "ready") [] (by intro kv hkv; cases hkv)

/-- A state whose persisted status is in_progress fails the
authoritative completion check. -/
theorem is_task_done_st_of_ip (s : EngSt) (h : statusOf s = lit "in_progress") :
    is_task_done_st s.task = false := by
  apply is_task_done_st_false
  show pyLower (pyStrip (statusOf s)) ≠ lit "done"
  rw [h]
  decide

theorem invoke_sc_eq (oracle : Nat → ExecBeh) (s : EngSt) (n : Nat)
    (m : List (Str × Str)) (c : Str) (cycle : Nat) (h : detect_tier m c < 2) :
    invoke_single_cycle oracle s n m c cycle =
      (match behToOut (oracle n) with
      | AttemptOut.exn msg => (invSt s n, n + 1, AttemptOut.exn msg)
      | AttemptOut.ok r =>
        if r.status = lit "done" then
          (update_task_frontmatter (invSt s n) [(lit "status", lit "done")], n + 1,
            AttemptOut.ok r)
        else if r.status = lit "in_progress" then
          (append_transition_history (update_task_frontmatter (invSt s n) (ipUpd r cycle))
            (lit "/Needs_Action") (lit "/Needs_Action")
            (lit "reprocess (cycle " ++ natStr cycle ++ lit ")") (lit "orchestrator"),
            n + 1, AttemptOut.ok r)
        else (invSt s n, n + 1, AttemptOut.ok r)) := by
  simp only [invoke_single_cycle]
  rw [process_task_no_halt oracle s n m c h]
  rcases behToOut (oracle n) with r | msg
  · simp only [ipUpd]
  · rfl

theorem statusOf_ipUpd (s : EngSt) (r : ExecResult) (cycle : Nat) :
    statusOf (update_task_frontmatter s (ipUpd r cycle)) = lit "in_progress" := by
  unfold ipUpd
  refine statusOf_update s _ _ ?_
  intro kv hkv
  rcases List.mem_cons.mp hkv with h | hkv2
  · subst h
    exact (by decide : lit "remaining_work" ≠ lit "status")
  · rcases List.mem_cons.mp hkv2 with h | hkv3
    · subst h
      exact (by decide : lit "last_cycle" ≠ lit "status")
    · cases hkv3

theorem runAttempts_cases (oracle : Nat → ExecBeh) :
    ∀ fuel cycle attempt s n lastErr lastRes,
      (∀ s' n', runAttempts oracle fuel cycle attempt s n lastErr lastRes =
          InnerOut.haltedOut s' n' →
        s'.trace.filter isFinalizeEv = s.trace.filter isFinalizeEv ∧
        s'.trace.filter isCycleStartEv = s.trace.filter isCycleStartEv) ∧
      (∀ s' n', runAttempts oracle fuel cycle attempt s n lastErr lastRes =
          InnerOut.doneOut s' n' →
        (∃ e, e ∈ s'.trace ∧ isDoneWriteEv e = true) ∧
        s'.trace.filter isCycleStartEv = s.trace.filter isCycleStartEv) ∧
      (∀ s' n' le' lr', runAttempts oracle fuel cycle attempt s n lastErr lastRes =
          InnerOut.contOut s' n' le' lr' →
        s'.trace.filter isFinalizeEv = s.trace.filter isFinalizeEv ∧
        s'.trace.filter isCycleStartEv = s.trace.filter isCycleStartEv ∧
        s'.escalations = s.escalations ∧
        (is_task_done_st s'.task = false ∨ (∃ e, e ∈ s'.trace ∧ isDoneWriteEv e = true) ∨
          (fuel = 0 ∧ s' = s))) := by
  intro fuel
  induction fuel with
  | zero =>
    intro cycle attempt s n le lr
    refine ⟨?_, ?_, ?_⟩
    · intro s' n' h
      simp only [runAttempts] at h
      cases h
    · intro s' n' h
      simp only [runAttempts] at h
      cases h
    · intro s' n' le' lr' h
      simp only [runAttempts] at h
      injection h with h1 h2 h3 h4
      subst h1
      exact ⟨rfl, rfl, rfl, Or.inr (Or.inr ⟨rfl, rfl⟩)⟩
  | succ f ih =>
    intro cycle attempt s n le lr
    by_cases ht : 2 ≤ detect_tier s.task.meta (contentOf s.task)
    · rw [runAttempts_tier_halt oracle f cycle attempt s n le lr ht]
      refine ⟨?_, ?_, ?_⟩
      · intro s' n' h
        injection h with h1 h2
        subst h1
        constructor <;>
          simp [haltEngSt, ghostAttempt, List.filter_append, isFinalizeEv, isCycleStartEv]
      · intro s' n' h
        cases h
      · intro s' n' le' lr' h
        cases h
    · simp only [runAttempts]
      have ht2 : detect_tier (ghostAttempt s cycle attempt).task.meta
          (contentOf (ghostAttempt s cycle attempt).task) < 2 := by
        have hg : (ghostAttempt s cycle attempt).task = s.task := rfl
        rw [hg]
        omega
      rw [invoke_sc_eq oracle (ghostAttempt s cycle attempt) n _ _ cycle ht2]
      rcases hbo : behToOut (oracle n) with r | msg
      · simp only []
        by_cases hd : r.status = lit "done"
        · rw [if_pos hd]
          simp only []
          rw [hd]
          rw [if_neg (by decide : ¬(lit "done" = lit "halted"))]
          rw [if_neg (by decide : ¬(lit "done" = lit "failed"))]
          by_cases hdone : is_task_done_st (update_task_frontmatter
              (invSt (ghostAttempt s cycle attempt) n)
              [(lit "status", lit "done")]).task = true
          · rw [if_pos hdone]
            refine ⟨?_, ?_, ?_⟩
            · intro s' n' h
              cases h
            · intro s' n' h
              injection h with h1 h2
              subst h1
              constructor
              · refine ⟨Ev.write [(lit "status", lit "done")], ?_, by decide⟩
                simp [complete_task, write_audit_log, update_task_frontmatter,
                  append_transition_history, appendBody, invSt, ghostAttempt,
                  List.mem_append]
              · simp [complete_task, write_audit_log, update_task_frontmatter,
                  append_transition_history, appendBody, invSt, ghostAttempt,
                  List.filter_append, isCycleStartEv]
            · intro s' n' le' lr' h
              cases h
          · rw [if_neg hdone]
            refine ⟨?_, ?_, ?_⟩
            · intro s' n' h
              cases h
            · intro s' n' h
              cases h
            · intro s' n' le' lr' h
              injection h with h1 h2 h3 h4
              subst h1
              refine ⟨?_, ?_, rfl, Or.inr (Or.inl ⟨Ev.write [(lit "status", lit "done")],
                ?_, by decide⟩)⟩
              · simp [update_task_frontmatter, invSt, ghostAttempt,
                  List.filter_append, isFinalizeEv]
              · simp [update_task_frontmatter, invSt, ghostAttempt,
                  List.filter_append, isCycleStartEv]
              · simp [update_task_frontmatter, invSt, ghostAttempt, List.mem_append]
        · rw [if_neg hd]
          by_cases hip : r.status = lit "in_progress"
          · rw [if_pos hip]
            simp only []
            rw [hip]
            rw [if_neg (by decide : ¬(lit "in_progress" = lit "halted"))]
            rw [if_neg (by decide : ¬(lit "in_progress" = lit "failed"))]
            have hst : is_task_done_st (update_task_frontmatter
                (invSt (ghostAttempt s cycle attempt) n) (ipUpd r cycle)).task = false :=
              is_task_done_st_of_ip _ (statusOf_ipUpd _ r cycle)
            rw [if_neg (show ¬(is_task_done_st (append_transition_history
                (update_task_frontmatter (invSt (ghostAttempt s cycle attempt) n)
                  (ipUpd r cycle))
                (lit "/Needs_Action") (lit "/Needs_Action")
                (lit "reprocess (cycle " ++ natStr cycle ++ lit ")")
                (lit "orchestrator")).task = true) from
              fun hcontra => Bool.noConfusion (hst.symm.trans hcontra))]
            refine ⟨?_, ?_, ?_⟩
            · intro s' n' h
              cases h
            · intro s' n' h
              cases h
            · intro s' n' le' lr' h
              injection h with h1 h2 h3 h4
              subst h1
              refine ⟨?_, ?_, rfl, Or.inl hst⟩
              · simp [append_transition_history, update_task_frontmatter, invSt,
                  ghostAttempt, List.filter_append, isFinalizeEv]
              · simp [append_transition_history, update_task_frontmatter, invSt,
                  ghostAttempt, List.filter_append, isCycleStartEv]
          · rw [if_neg hip]
            simp only []
            by_cases hh : r.status = lit "halted"
            · rw [if_pos hh]
              refine ⟨?_, ?_, ?_⟩
              · intro s' n' h
                injection h with h1 h2
                subst h1
                constructor
                · simp [invSt, ghostAttempt, List.filter_append, isFinalizeEv]
                · simp [invSt, ghostAttempt, List.filter_append, isCycleStartEv]
              · intro s' n' h
                cases h
              · intro s' n' le' lr' h
                cases h
            · rw [if_neg hh]
              by_cases hf : r.status = lit "failed"
              · rw [if_pos hf]
                by_cases h1f : 1 ≤ f
                · rw [if_pos h1f]
                  obtain ⟨ihh, ihd, ihc⟩ := ih cycle (attempt + 1)
                    (update_task_frontmatter (invSt (ghostAttempt s cycle attempt) n)
                      [(lit "status", lit "ready")]) (n + 1) r.errors (some r)
                  have hbase : ∀ p : Ev → Bool,
                      (update_task_frontmatter (invSt (ghostAttempt s cycle attempt) n)
                        [(lit "status", lit "ready")]).trace.filter p =
                        s.trace.filter p ++ ([Ev.attemptStart cycle attempt (statusOf s),
                          Ev.write haltUpd1, Ev.invoke n,
                          Ev.write [(lit "status", lit "ready")]].filter p) := by
                    intro p
                    simp [update_task_frontmatter, invSt, ghostAttempt, statusOf,
                      List.filter_append]
                  refine ⟨?_, ?_, ?_⟩
                  · intro s' n' h
                    obtain ⟨hfin, hcs⟩ := ihh s' n' h
                    constructor
                    · rw [hfin, hbase isFinalizeEv]
                      simp [isFinalizeEv]
                    · rw [hcs, hbase isCycleStartEv]
                      simp [isCycleStartEv]
                  · intro s' n' h
                    obtain ⟨hdw, hcs⟩ := ihd s' n' h
                    refine ⟨hdw, ?_⟩
                    rw [hcs, hbase isCycleStartEv]
                    simp [isCycleStartEv]
                  · intro s' n' le' lr' h
                    obtain ⟨hfin, hcs, hesc, hdisj⟩ := ihc s' n' le' lr' h
                    refine ⟨?_, ?_, hesc, ?_⟩
                    · rw [hfin, hbase isFinalizeEv]
                      simp [isFinalizeEv]
                    · rw [hcs, hbase isCycleStartEv]
                      simp [isCycleStartEv]
                    · rcases hdisj with h1 | h2 | ⟨hf0, _⟩
                      · exact Or.inl h1
                      · exact Or.inr (Or.inl h2)
                      · omega
                · rw [if_neg h1f]
                  refine ⟨?_, ?_, ?_⟩
                  · intro s' n' h
                    cases h
                  · intro s' n' h
                    cases h
                  · intro s' n' le' lr' h
                    injection h with h1 h2 h3 h4
                    subst h1
                    refine ⟨?_, ?_, rfl,
                      Or.inl (is_task_done_st_of_ip _ (statusOf_invSt _ n))⟩
                    · simp [invSt, ghostAttempt, List.filter_append, isFinalizeEv]
                    · simp [invSt, ghostAttempt, List.filter_append, isCycleStartEv]
              · rw [if_neg hf]
                have hst : is_task_done_st (invSt (ghostAttempt s cycle attempt) n).task =
                    false := is_task_done_st_of_ip _ (statusOf_invSt _ n)
                rw [if_neg (fun hcontra => Bool.noConfusion (hst.symm.trans hcontra))]
                refine ⟨?_, ?_, ?_⟩
                · intro s' n' h
                  cases h
                · intro s' n' h
                  cases h
                · intro s' n' le' lr' h
                  injection h with h1 h2 h3 h4
                  subst h1
                  refine ⟨?_, ?_, rfl, Or.inl hst⟩
                  · simp [invSt, ghostAttempt, List.filter_append, isFinalizeEv]
                  · simp [invSt, ghostAttempt, List.filter_append, isCycleStartEv]
      · simp only []
        obtain ⟨ihh, ihd, ihc⟩ := ih cycle (attempt + 1)
          (write_audit_log
            (if 1 ≤ f then
              update_task_frontmatter (invSt (ghostAttempt s cycle attempt) n)
                [(lit "status", lit "ready")]
            else invSt (ghostAttempt s cycle attempt) n) (lit "failed"))
          (n + 1) (lit "Exception: " ++ msg) lr
        have hbase : ∀ p : Ev → Bool,
            (write_audit_log
              (if 1 ≤ f then
                update_task_frontmatter (invSt (ghostAttempt s cycle attempt) n)
                  [(lit "status", lit "ready")]
              else invSt (ghostAttempt s cycle attempt) n) (lit "failed")).trace.filter p =
              s.trace.filter p ++
                ((if 1 ≤ f then
                  [Ev.attemptStart cycle attempt (statusOf s), Ev.write haltUpd1,
                   Ev.invoke n, Ev.write [(lit "status", lit "ready")],
                   Ev.auditEv (lit "failed")]
                else
                  [Ev.attemptStart cycle attempt (statusOf s), Ev.write haltUpd1,
                   Ev.invoke n, Ev.auditEv (lit "failed")]).filter p) := by
          intro p
          by_cases h1f : 1 ≤ f
          · rw [if_pos h1f, if_pos h1f]
            simp [write_audit_log, update_task_frontmatter, invSt, ghostAttempt, statusOf,
              List.filter_append]
          · rw [if_neg h1f, if_neg h1f]
            simp [write_audit_log, invSt, ghostAttempt, statusOf, List.filter_append]
        refine ⟨?_, ?_, ?_⟩
        · intro s' n' h
          obtain ⟨hfin, hcs⟩ := ihh s' n' h
          constructor
          · rw [hfin, hbase isFinalizeEv]
            by_cases h1f : 1 ≤ f <;> simp [h1f, isFinalizeEv]
          · rw [hcs, hbase isCycleStartEv]
            by_cases h1f : 1 ≤ f <;> simp [h1f, isCycleStartEv]
        · intro s' n' h
          obtain ⟨hdw, hcs⟩ := ihd s' n' h
          refine ⟨hdw, ?_⟩
          rw [hcs, hbase isCycleStartEv]
          by_cases h1f : 1 ≤ f <;> simp [h1f, isCycleStartEv]
        · intro s' n' le' lr' h
          obtain ⟨hfin, hcs, hesc, hdisj⟩ := ihc s' n' le' lr' h
          have hesc2 : (write_audit_log
              (if 1 ≤ f then
                update_task_frontmatter (invSt (ghostAttempt s cycle attempt) n)
                  [(lit "status", lit "ready")]
              else invSt (ghostAttempt s cycle attempt) n) (lit "failed")).escalations =
              s.escalations := by
            by_cases h1f : 1 ≤ f <;>
              simp [h1f, write_audit_log, update_task_frontmatter, invSt, ghostAttempt]
          refine ⟨?_, ?_, hesc.trans hesc2, ?_⟩
          · rw [hfin, hbase isFinalizeEv]
            by_cases h1f : 1 ≤ f <;> simp [h1f, isFinalizeEv]
          · rw [hcs, hbase isCycleStartEv]
            by_cases h1f : 1 ≤ f <;> simp [h1f, isCycleStartEv]
          · rcases hdisj with h1 | h2 | ⟨hf0, hseq⟩
            · exact Or.inl h1
            · exact Or.inr (Or.inl h2)
            · subst hseq
              refine Or.inl (is_task_done_st_of_ip _ ?_)
              have hf0' : (1 ≤ f) = False := by simp [hf0]
              show statusOf (write_audit_log
                (if 1 ≤ f then
                  update_task_frontmatter (invSt (ghostAttempt s cycle attempt) n)
                    [(lit "status", lit "ready")]
                else invSt (ghostAttempt s cycle attempt) n) (lit "failed")) =
                lit "in_progress"
              rw [if_neg (by omega)]
              exact statusOf_invSt _ n

theorem prefixApp2 {α : Type} (l a b : List α) : l <+: (l ++ a) ++ b :=
  ⟨a ++ b, by simp⟩

theorem prefixApp3 {α : Type} (l a b c : List α) : l <+: ((l ++ a) ++ b) ++ c :=
  ⟨a ++ b ++ c, by simp⟩

theorem prefixApp4 {α : Type} (l a b c d : List α) : l <+: (((l ++ a) ++ b) ++ c) ++ d :=
  ⟨a ++ b ++ c ++ d, by simp⟩

theorem prefixApp5 {α : Type} (l a b c d e : List α) :
    l <+: ((((l ++ a) ++ b) ++ c) ++ d) ++ e :=
  ⟨a ++ b ++ c ++ d ++ e, by simp⟩

theorem process_task_trace_prefix (oracle : Nat → ExecBeh) (s : EngSt) (n : Nat)
    (m : List (Str × Str)) (c : Str) :
    s.trace <+: (process_task oracle s n m c).1.trace := by
  simp only [process_task]
  split
  · exact prefixApp5 _ _ _ _ _ _
  · split
    · exact prefixApp2 _ _ _
    · exact prefixApp2 _ _ _

theorem invoke_single_cycle_trace_prefix (oracle : Nat → ExecBeh) (s : EngSt) (n : Nat)
    (m : List (Str × Str)) (c : Str) (cycle : Nat) :
    s.trace <+: (invoke_single_cycle oracle s n m c cycle).1.trace := by
  unfold invoke_single_cycle
  rcases hpt : process_task oracle s n m c with ⟨s1, n1, out⟩
  have h1 : s.trace <+: s1.trace := by
    have := process_task_trace_prefix oracle s n m c
    rwa [hpt] at this
  rcases out with r | msg
  · simp only []
    split
    · exact h1.trans (List.prefix_append _ _)
    · split
      · exact h1.trans (prefixApp2 _ _ _)
      · exact h1
  · exact h1

theorem runAttempts_trace_prefix (oracle : Nat → ExecBeh) :
    ∀ fuel cycle attempt s n lastErr lastRes,
      s.trace <+:
        (innerSt (runAttempts oracle fuel cycle attempt s n lastErr lastRes)).trace := by
  intro fuel
  induction fuel with
  | zero => intro cycle attempt s n le lr; exact List.prefix_rfl
  | succ f ih =>
    intro cycle attempt s n le lr
    simp only [runAttempts]
    rcases hinv : invoke_single_cycle oracle (ghostAttempt s cycle attempt) n
      (ghostAttempt s cycle attempt).task.meta
      (contentOf (ghostAttempt s cycle attempt).task) cycle with ⟨s1, n1, out⟩
    have h1 : s.trace <+: s1.trace := by
      have h2 := invoke_single_cycle_trace_prefix oracle (ghostAttempt s cycle attempt) n
        (ghostAttempt s cycle attempt).task.meta
        (contentOf (ghostAttempt s cycle attempt).task) cycle
      rw [hinv] at h2
      exact (List.prefix_append _ _).trans h2
    rcases out with r | msg
    · simp only []
      split
      · exact h1
      · split
        · split
          · exact h1.trans ((List.prefix_append _ _).trans (ih cycle (attempt + 1)
              (update_task_frontmatter s1 [(lit "status", lit "ready")]) n1 r.errors (some r)))
          · exact h1
        · split
          · exact h1.trans (prefixApp4 _ _ _ _ _)
          · exact h1
    · simp only []
      split
      · exact h1.trans ((prefixApp2 _ _ _).trans (ih cycle (attempt + 1)
          (write_audit_log (update_task_frontmatter s1 [(lit "status", lit "ready")])
            (lit "failed")) n1 (lit "Exception: " ++ msg) lr))
      · exact h1.trans ((List.prefix_append _ _).trans (ih cycle (attempt + 1)
          (write_audit_log s1 (lit "failed")) n1 (lit "Exception: " ++ msg) lr))

theorem runCycles_trace_prefix (oracle : Nat → ExecBeh) :
    ∀ cyclesLeft cycle s n lastErr lastRes,
      s.trace <+: (runCycles oracle cyclesLeft cycle s n lastErr lastRes).s.trace := by
  intro cl
  induction cl with
  | zero =>
    intro cycle s n le lr
    simp only [runCycles]
    unfold fail_task
    rw [if_pos (Or.inl rfl)]
    exact prefixApp5 _ _ _ _ _ _
  | succ cl ih =>
    intro cycle s n le lr
    simp only [runCycles]
    rcases hra : runAttempts oracle (MAX_RETRIES + 1) cycle 1 (ghostCycle s cycle) n le lr
      with ⟨s1, n1⟩ | ⟨s1, n1⟩ | ⟨s1, n1, le1, lr1⟩
    · have h2 := runAttempts_trace_prefix oracle (MAX_RETRIES + 1) cycle 1
        (ghostCycle s cycle) n le lr
      rw [hra] at h2
      exact (List.prefix_append _ _).trans h2
    · have h2 := runAttempts_trace_prefix oracle (MAX_RETRIES + 1) cycle 1
        (ghostCycle s cycle) n le lr
      rw [hra] at h2
      exact (List.prefix_append _ _).trans h2
    · have h1 : s.trace <+: s1.trace := by
        have h2 := runAttempts_trace_prefix oracle (MAX_RETRIES + 1) cycle 1
          (ghostCycle s cycle) n le lr
        rw [hra] at h2
        exact (List.prefix_append _ _).trans h2
      simp only []
      split
      · exact h1.trans (prefixApp4 _ _ _ _ _)
      · refine h1.trans ?_
        split
        · exact (List.prefix_append _ _).trans
            (ih (cycle + 1) { s1 with trace := s1.trace ++ [Ev.cooldownEv] } n1 le1 lr1)
        · exact ih (cycle + 1) s1 n1 le1 lr1

def noDoneWrite (tr : List Ev) : Bool := tr.all (fun e => !isDoneWriteEv e)

theorem noDoneWrite_no_mem (tr : List Ev) (h : noDoneWrite tr = true) :
    ¬∃ e, e ∈ tr ∧ isDoneWriteEv e = true := by
  unfold noDoneWrite at h
  rw [List.all_eq_true] at h
  rintro ⟨e, hmem, hde⟩
  have h2 := h e hmem
  rw [hde] at h2
  cases h2

theorem runCycles_no_done (oracle : Nat → ExecBeh) :
    ∀ cyclesLeft cycle s n lastErr lastRes,
      noDoneWrite (runCycles oracle cyclesLeft cycle s n lastErr lastRes).s.trace = true →
      (runCycles oracle cyclesLeft cycle s n lastErr lastRes).fin ≠ RunEnd.completedRun ∧
      (runCycles oracle cyclesLeft cycle s n lastErr lastRes).s.trace.filter isFinalizeEv =
        s.trace.filter isFinalizeEv := by
  intro cl
  induction cl with
  | zero =>
    intro cycle s n le lr _
    constructor
    · intro hfin
      simp only [runCycles] at hfin
      cases hfin
    · simp only [runCycles]
      unfold fail_task
      rw [if_pos (Or.inl rfl)]
      simp [write_audit_log, write_escalation, append_transition_history,
        update_task_frontmatter, List.filter_append, isFinalizeEv]
  | succ cl ih =>
    intro cycle s n le lr hnd
    obtain ⟨rh, rd, rc⟩ := runAttempts_cases oracle (MAX_RETRIES + 1) cycle 1
      (ghostCycle s cycle) n le lr
    simp only [runCycles] at hnd ⊢
    rcases hra : runAttempts oracle (MAX_RETRIES + 1) cycle 1 (ghostCycle s cycle) n le lr
      with ⟨s1, n1⟩ | ⟨s1, n1⟩ | ⟨s1, n1, le1, lr1⟩
    · rw [hra] at hnd
      simp only [] at hnd ⊢
      obtain ⟨hfin, _⟩ := rh s1 n1 hra
      constructor
      · intro hc
        cases hc
      · rw [hfin]
        simp [ghostCycle, List.filter_append, isFinalizeEv]
    · rw [hra] at hnd
      simp only [] at hnd ⊢
      obtain ⟨⟨e, hmem, hde⟩, _⟩ := rd s1 n1 hra
      exact absurd ⟨e, hmem, hde⟩ (noDoneWrite_no_mem _ hnd)
    · rw [hra] at hnd
      simp only [] at hnd ⊢
      obtain ⟨hfin, hcs, hesc, hdisj⟩ := rc s1 n1 le1 lr1 hra
      rcases hdisj with hnotdone | ⟨e, hmem, hde⟩ | ⟨hf0, _⟩
      · have hcond : ¬((s1.task.fileExists && is_task_done_st s1.task) = true) := by
          rw [hnotdone]
          simp
        rw [if_neg hcond] at hnd ⊢
        have hnd2 : noDoneWrite (runCycles oracle cl (cycle + 1)
            (if 0 < cl then { s1 with trace := s1.trace ++ [Ev.cooldownEv] } else s1)
            n1 le1 lr1).s.trace = true := hnd
        obtain ⟨ihfin, ihfilter⟩ := ih (cycle + 1)
          (if 0 < cl then { s1 with trace := s1.trace ++ [Ev.cooldownEv] } else s1)
          n1 le1 lr1 hnd2
        refine ⟨ihfin, ?_⟩
        rw [ihfilter]
        have hstep : (if 0 < cl then { s1 with trace := s1.trace ++ [Ev.cooldownEv] }
            else s1).trace.filter isFinalizeEv = s1.trace.filter isFinalizeEv := by
          split
          · simp [List.filter_append, isFinalizeEv]
          · rfl
        rw [hstep, hfin]
        simp [ghostCycle, List.filter_append, isFinalizeEv]
      · -- a done write already happened inside the attempts: contradicts the hypothesis
        exfalso
        by_cases hcond : (s1.task.fileExists && is_task_done_st s1.task) = true
        · rw [if_pos hcond] at hnd
          refine noDoneWrite_no_mem _ hnd ⟨e, ?_, hde⟩
          simp only [write_audit_log, complete_task, appendBody, append_transition_history,
            update_task_frontmatter]
          simp [List.mem_append, hmem]
        · rw [if_neg hcond] at hnd
          refine noDoneWrite_no_mem _ hnd ⟨e, ?_, hde⟩
          have hp := runCycles_trace_prefix oracle cl (cycle + 1)
            (if 0 < cl then { s1 with trace := s1.trace ++ [Ev.cooldownEv] } else s1) n1 le1 lr1
          refine hp.subset ?_
          split
          · simp [List.mem_append, hmem]
          · exact hmem
      · exact absurd hf0 (Nat.succ_ne_zero _)

/-- Claim C1 — authoritative completion: if no write during the run ever
sets the persisted status field to done, the engine does not finalize
the task: the run does not end completed, no finalize (move to the
terminal area) event occurs, and the run instead proceeds through its
cycles to a halt or to exhaustion.  Finalization is gated solely on the
store-read check is_task_done confirming the persisted status. -/
theorem authoritative_completion (oracle : Nat → ExecBeh) (t : TaskSt)
    (h : noDoneWrite (execute_with_retry oracle t).s.trace = true) :
    (execute_with_retry oracle t).fin ≠ RunEnd.completedRun ∧
    (∀ c, Ev.finalizeEv c ∉ (execute_with_retry oracle t).s.trace) ∧
    ((execute_with_retry oracle t).fin = RunEnd.haltedRun ∨
      (execute_with_retry oracle t).fin = RunEnd.exhausted) := by
  unfold execute_with_retry at h ⊢
  obtain ⟨hfin, hfilter⟩ :=
    runCycles_no_done oracle MAX_COMPLETION_CYCLES 1 ⟨t, [], []⟩ 0 [] none h
  refine ⟨hfin, ?_, ?_⟩
  · intro c hmem
    have hm2 : Ev.finalizeEv c ∈
        (runCycles oracle MAX_COMPLETION_CYCLES 1 ⟨t, [], []⟩ 0 [] none).s.trace.filter
          isFinalizeEv :=
      List.mem_filter.mpr ⟨hmem, rfl⟩
    rw [hfilter] at hm2
    simp at hm2
  · cases hval : (runCycles oracle MAX_COMPLETION_CYCLES 1 ⟨t, [], []⟩ 0 [] none).fin
    · exact Or.inl rfl
    · exact absurd hval hfin
    · exact Or.inr rfl

def partialOracle : Nat → ExecBeh := fun _ => ExecBeh.returns partialResult

/-- Witness for C1: an executor that always reports the non-done status
partial never gets its task finalized; the run exhausts its cycles. -/
theorem authoritative_completion_witness :
    noDoneWrite (execute_with_retry partialOracle benignTask).s.trace = true ∧
    (execute_with_retry partialOracle benignTask).fin ≠ RunEnd.completedRun ∧
    (∀ c, Ev.finalizeEv c ∉ (execute_with_retry partialOracle benignTask).s.trace) := by
  have hnd : noDoneWrite (execute_with_retry partialOracle benignTask).s.trace = true := by
    decide!
  have h := authoritative_completion partialOracle benignTask hnd
  exact ⟨hnd, h.1, h.2.1⟩

theorem statusOf_fail_task (s : EngSt) (e sev : Str) (a : Nat) :
    statusOf (fail_task s e sev a) = lit "failed" := by
  have h0 : statusOf (update_task_frontmatter s
      [(lit "status", lit "failed"), (lit "error", e.take 200),
       (lit "attempts", natStr a)]) = lit "failed" := by
    refine statusOf_update s _ _ ?_
    intro kv hkv
    rcases List.mem_cons.mp hkv with hh | hkv2
    · subst hh
      exact (by decide : lit "error" ≠ lit "status")
    · rcases List.mem_cons.mp hkv2 with hh | hkv3
      · subst hh
        exact (by decide : lit "attempts" ≠ lit "status")
      · cases hkv3
  unfold fail_task
  split
  · exact h0
  · exact h0

theorem runCycles_exhaust (oracle : Nat → ExecBeh) :
    ∀ cyclesLeft cycle s n lastErr lastRes,
      noDoneWrite (runCycles oracle cyclesLeft cycle s n lastErr lastRes).s.trace = true →
      (runCycles oracle cyclesLeft cycle s n lastErr lastRes).fin ≠ RunEnd.haltedRun →
      (runCycles oracle cyclesLeft cycle s n lastErr lastRes).fin = RunEnd.exhausted ∧
      (runCycles oracle cyclesLeft cycle s n lastErr lastRes).s.trace.filter isCycleStartEv =
        s.trace.filter isCycleStartEv ++ (List.range' cycle cyclesLeft).map Ev.cycleStart ∧
      (runCycles oracle cyclesLeft cycle s n lastErr lastRes).s.escalations =
        s.escalations ++ [lit "E3"] ∧
      Ev.failTaskEv (lit "E3") MAX_COMPLETION_CYCLES ∈
        (runCycles oracle cyclesLeft cycle s n lastErr lastRes).s.trace ∧
      statusOf (runCycles oracle cyclesLeft cycle s n lastErr lastRes).s = lit "failed" ∧
      (∃ pre, (runCycles oracle cyclesLeft cycle s n lastErr lastRes).s.task.hist =
        pre ++ [failRow (lit "E3")]) := by
  intro cl
  induction cl with
  | zero =>
    intro cycle s n le lr _ _
    simp only [runCycles]
    refine ⟨trivial, ?_, ?_, ?_, ?_, ?_⟩
    · unfold fail_task
      rw [if_pos (Or.inl rfl)]
      simp [write_audit_log, write_escalation, append_transition_history,
        update_task_frontmatter, List.filter_append, isCycleStartEv]
    · unfold fail_task
      rw [if_pos (Or.inl rfl)]
      simp [write_audit_log, write_escalation, append_transition_history,
        update_task_frontmatter]
    · unfold fail_task
      rw [if_pos (Or.inl rfl)]
      simp [write_audit_log, write_escalation, append_transition_history,
        update_task_frontmatter, List.mem_append]
    · exact statusOf_fail_task s _ (lit "E3") MAX_COMPLETION_CYCLES
    · exact ⟨s.task.hist, fail_task_hist s _ _ _⟩
  | succ cl ih =>
    intro cycle s n le lr hnd hnh
    obtain ⟨rh, rd, rc⟩ := runAttempts_cases oracle (MAX_RETRIES + 1) cycle 1
      (ghostCycle s cycle) n le lr
    simp only [runCycles] at hnd hnh ⊢
    rcases hra : runAttempts oracle (MAX_RETRIES + 1) cycle 1 (ghostCycle s cycle) n le lr
      with ⟨s1, n1⟩ | ⟨s1, n1⟩ | ⟨s1, n1, le1, lr1⟩
    · rw [hra] at hnh
      exact absurd rfl hnh
    · rw [hra] at hnd
      simp only [] at hnd
      obtain ⟨⟨e, hmem, hde⟩, _⟩ := rd s1 n1 hra
      exact absurd ⟨e, hmem, hde⟩ (noDoneWrite_no_mem _ hnd)
    · rw [hra] at hnd hnh
      simp only [] at hnd hnh ⊢
      obtain ⟨hfin, hcs, hesc, hdisj⟩ := rc s1 n1 le1 lr1 hra
      rcases hdisj with hnotdone | ⟨e, hmem, hde⟩ | ⟨hf0, _⟩
      · have hcond : ¬((s1.task.fileExists && is_task_done_st s1.task) = true) := by
          rw [hnotdone]
          simp
        rw [if_neg hcond] at hnd hnh ⊢
        obtain ⟨ih1, ih2, ih3, ih4, ih5, ih6⟩ := ih (cycle + 1)
          (if 0 < cl then { s1 with trace := s1.trace ++ [Ev.cooldownEv] } else s1)
          n1 le1 lr1 hnd hnh
        have hstepCS : (if 0 < cl then { s1 with trace := s1.trace ++ [Ev.cooldownEv] }
            else s1).trace.filter isCycleStartEv = s1.trace.filter isCycleStartEv := by
          split
          · simp [List.filter_append, isCycleStartEv]
          · rfl
        have hstepEsc : (if 0 < cl then { s1 with trace := s1.trace ++ [Ev.cooldownEv] }
            else s1).escalations = s1.escalations := by
          split
          · rfl
          · rfl
        refine ⟨ih1, ?_, ?_, ih4, ih5, ih6⟩
        · rw [ih2, hstepCS, hcs]
          simp only [ghostCycle, List.filter_append]
          have hr : List.range' cycle (cl + 1) = cycle :: List.range' (cycle + 1) cl :=
            List.range'_succ cycle cl 1
          rw [hr]
          simp [isCycleStartEv, List.append_assoc]
        · rw [ih3, hstepEsc, hesc]
          rfl
      · exfalso
        by_cases hcond : (s1.task.fileExists && is_task_done_st s1.task) = true
        · rw [if_pos hcond] at hnd
          refine noDoneWrite_no_mem _ hnd ⟨e, ?_, hde⟩
          simp only [write_audit_log, complete_task, appendBody, append_transition_history,
            update_task_frontmatter]
          simp [List.mem_append, hmem]
        · rw [if_neg hcond] at hnd
          refine noDoneWrite_no_mem _ hnd ⟨e, ?_, hde⟩
          have hp := runCycles_trace_prefix oracle cl (cycle + 1)
            (if 0 < cl then { s1 with trace := s1.trace ++ [Ev.cooldownEv] } else s1) n1 le1 lr1
          refine hp.subset ?_
          split
          · simp [List.mem_append, hmem]
          · exact hmem
      · exact absurd hf0 (Nat.succ_ne_zero _)

/-- Claim C2 (amended) — cycle budget: with MAX_CYCLES = 10, a task whose
persisted status never becomes done during processing and which is never
tier-halted runs exactly 10 completion cycles, is then marked failed
with severity E3, gets a fail transition record appended as its last
history row, and exactly one escalation record is created. -/
theorem cycle_budget (oracle : Nat → ExecBeh) (t : TaskSt)
    (hnd : noDoneWrite (execute_with_retry oracle t).s.trace = true)
    (hnh : (execute_with_retry oracle t).fin ≠ RunEnd.haltedRun) :
    (execute_with_retry oracle t).fin = RunEnd.exhausted ∧
    (execute_with_retry oracle t).s.trace.filter isCycleStartEv =
      (List.range' 1 MAX_COMPLETION_CYCLES).map Ev.cycleStart ∧
    (execute_with_retry oracle t).s.escalations = [lit "E3"] ∧
    Ev.failTaskEv (lit "E3") MAX_COMPLETION_CYCLES ∈ (execute_with_retry oracle t).s.trace ∧
    statusOf (execute_with_retry oracle t).s = lit "failed" ∧
    (∃ pre, (execute_with_retry oracle t).s.task.hist = pre ++ [failRow (lit "E3")]) := by
  unfold execute_with_retry at hnd hnh ⊢
  obtain ⟨h1, h2, h3, h4, h5, h6⟩ :=
    runCycles_exhaust oracle MAX_COMPLETION_CYCLES 1 ⟨t, [], []⟩ 0 [] none hnd hnh
  refine ⟨h1, ?_, ?_, h4, h5, h6⟩
  · rw [h2]
    rfl
  · rw [h3]
    rfl

/-- Counterexample for C2 as stated: a task containing a tier-3 keyword
never has its persisted status become done, yet the completion loop runs
only one cycle and leaves it blocked, not failed, with no fail record. -/
theorem cycle_budget_counterexample :
    noDoneWrite (execute_with_retry (fun _ => ExecBeh.returns partialResult)
      tier3Task).s.trace = true ∧
    (execute_with_retry (fun _ => ExecBeh.returns partialResult) tier3Task).s.trace.filter
      isCycleStartEv = [Ev.cycleStart 1] ∧
    (execute_with_retry (fun _ => ExecBeh.returns partialResult) tier3Task).fin =
      RunEnd.haltedRun ∧
    statusOf (execute_with_retry (fun _ => ExecBeh.returns partialResult) tier3Task).s =
      lit "blocked" ∧
    Ev.failTaskEv (lit "E3") MAX_COMPLETION_CYCLES ∉
      (execute_with_retry (fun _ => ExecBeh.returns partialResult) tier3Task).s.trace := by
  decide!

/-- Witness for C2 (amended): an executor that always reports partial
exhausts all ten cycles and the task is failed with one E3 escalation. -/
theorem cycle_budget_witness :
    noDoneWrite (execute_with_retry partialOracle benignTask).s.trace = true ∧
    (execute_with_retry partialOracle benignTask).fin ≠ RunEnd.haltedRun ∧
    (execute_with_retry partialOracle benignTask).fin = RunEnd.exhausted ∧
    (execute_with_retry partialOracle benignTask).s.escalations = [lit "E3"] := by
  have hb : noDoneWrite (execute_with_retry partialOracle benignTask).s.trace = true ∧
      (execute_with_retry partialOracle benignTask).fin ≠ RunEnd.haltedRun := by
    decide!
  have h := cycle_budget partialOracle benignTask hb.1 hb.2
  exact ⟨hb.1, hb.2, h.1, h.2.2.1⟩

/-- An executor invocation that fails: either the attempt raises an
exception or the returned result dictionary reports status failed. -/
def failish : ExecBeh → Bool
  | ExecBeh.returns r => decide (r.status = lit "failed")
  | ExecBeh.raises _ => true

/-- Loop-structure tag of an event: a cycle start is tagged (cycle, 0)
and an attempt start (cycle, attempt); store effects carry no tag.  The
tag stream of a trace therefore shows the order in which cycles begin
and attempts run. -/
def loopTag : Ev → Option (Nat × Nat)
  | Ev.attemptStart c a _ => some (c, a)
  | Ev.cycleStart c => some (c, 0)
  | _ => none

/-- Expected tag stream of a run of the given number of full cycles
starting at the given cycle number: each cycle begins and then runs its
three attempts before the next cycle begins. -/
def cycleTags (cycle : Nat) : Nat → List (Nat × Nat)
  | 0 => []
  | Nat.succ k =>
    [(cycle, 0), (cycle, 1), (cycle, 2), (cycle, 3)] ++ cycleTags (cycle + 1) k

theorem runAttempts_fail (oracle : Nat → ExecBeh) (hfail : ∀ k, failish (oracle k) = true) :
    ∀ fuel cycle attempt s n lastErr lastRes,
      (∃ s' n', runAttempts oracle fuel cycle attempt s n lastErr lastRes =
        InnerOut.haltedOut s' n') ∨
      (∃ s' n' le' lr', runAttempts oracle fuel cycle attempt s n lastErr lastRes =
          InnerOut.contOut s' n' le' lr' ∧
        s'.trace.filterMap loopTag = s.trace.filterMap loopTag ++
          (List.range' attempt fuel).map (fun a => (cycle, a)) ∧
        n' = n + fuel ∧
        s'.escalations = s.escalations ∧
        (1 ≤ fuel → statusOf s' = lit "in_progress") ∧
        (fuel = 0 → s' = s)) := by
  intro fuel
  induction fuel with
  | zero =>
    intro cycle attempt s n le lr
    refine Or.inr ⟨s, n, le, lr, rfl, by simp, (Nat.add_zero n).symm, rfl,
      fun h => absurd h (by omega), fun _ => rfl⟩
  | succ f ih =>
    intro cycle attempt s n le lr
    by_cases ht : 2 ≤ detect_tier s.task.meta (contentOf s.task)
    · rw [runAttempts_tier_halt oracle f cycle attempt s n le lr ht]
      exact Or.inl ⟨_, _, rfl⟩
    · simp only [runAttempts]
      have ht2 : detect_tier (ghostAttempt s cycle attempt).task.meta
          (contentOf (ghostAttempt s cycle attempt).task) < 2 := by
        have hg : (ghostAttempt s cycle attempt).task = s.task := rfl
        rw [hg]
        omega
      rw [invoke_sc_eq oracle (ghostAttempt s cycle attempt) n _ _ cycle ht2]
      rcases hbo : behToOut (oracle n) with r | msg
      · simp only []
        have hrf : r.status = lit "failed" := by
          have hn := hfail n
          cases ho : oracle n with
          | returns r0 =>
            rw [ho] at hbo hn
            simp only [behToOut] at hbo
            injection hbo with hr0
            subst hr0
            simp only [failish] at hn
            exact of_decide_eq_true hn
          | raises msg0 =>
            rw [ho] at hbo
            simp only [behToOut] at hbo
            cases hbo
        rw [if_neg (show ¬(r.status = lit "done") by rw [hrf]; decide)]
        rw [if_neg (show ¬(r.status = lit "in_progress") by rw [hrf]; decide)]
        simp only []
        rw [if_neg (show ¬(r.status = lit "halted") by rw [hrf]; decide)]
        rw [if_pos hrf]
        by_cases h1f : 1 ≤ f
        · rw [if_pos h1f]
          rcases ih cycle (attempt + 1)
              (update_task_frontmatter (invSt (ghostAttempt s cycle attempt) n)
                [(lit "status", lit "ready")]) (n + 1) r.errors (some r)
            with ⟨s', n', heq⟩ | ⟨s', n', le', lr', heq, htag, hn', hesc, hstat, _⟩
          · exact Or.inl ⟨s', n', heq⟩
          · refine Or.inr ⟨s', n', le', lr', heq, ?_, by omega, ?_, fun _ => hstat h1f,
              fun h0 => absurd h0 (Nat.succ_ne_zero f)⟩
            · rw [htag]
              have hbase : (update_task_frontmatter (invSt (ghostAttempt s cycle attempt) n)
                  [(lit "status", lit "ready")]).trace.filterMap loopTag =
                  s.trace.filterMap loopTag ++ [(cycle, attempt)] := by
                simp [update_task_frontmatter, invSt, ghostAttempt, statusOf,
                  List.filterMap_append, loopTag]
              rw [hbase, List.range'_succ]
              simp [List.append_assoc]
            · rw [hesc]
              simp [update_task_frontmatter, invSt, ghostAttempt]
        · rw [if_neg h1f]
          have hf0 : f = 0 := by omega
          subst hf0
          refine Or.inr ⟨_, _, _, _, rfl, ?_, rfl, rfl,
            fun _ => statusOf_invSt _ n, fun h0 => absurd h0 (Nat.succ_ne_zero 0)⟩
          rw [List.range'_succ]
          simp [invSt, ghostAttempt, statusOf, List.filterMap_append, loopTag]
      · simp only []
        rcases ih cycle (attempt + 1)
            (write_audit_log
              (if 1 ≤ f then
                update_task_frontmatter (invSt (ghostAttempt s cycle attempt) n)
                  [(lit "status", lit "ready")]
              else invSt (ghostAttempt s cycle attempt) n) (lit "failed"))
            (n + 1) (lit "Exception: " ++ msg) lr
          with ⟨s', n', heq⟩ | ⟨s', n', le', lr', heq, htag, hn', hesc, hstat, hfuel0⟩
        · exact Or.inl ⟨s', n', heq⟩
        · refine Or.inr ⟨s', n', le', lr', heq, ?_, by omega, ?_, ?_,
            fun h0 => absurd h0 (Nat.succ_ne_zero f)⟩
          · rw [htag]
            have hbase : (write_audit_log
                (if 1 ≤ f then
                  update_task_frontmatter (invSt (ghostAttempt s cycle attempt) n)
                    [(lit "status", lit "ready")]
                else invSt (ghostAttempt s cycle attempt) n)
                (lit "failed")).trace.filterMap loopTag =
                s.trace.filterMap loopTag ++ [(cycle, attempt)] := by
              by_cases h1f : 1 ≤ f
              · rw [if_pos h1f]
                simp [write_audit_log, update_task_frontmatter, invSt, ghostAttempt,
                  statusOf, List.filterMap_append, loopTag]
              · rw [if_neg h1f]
                simp [write_audit_log, invSt, ghostAttempt, statusOf,
                  List.filterMap_append, loopTag]
            rw [hbase, List.range'_succ]
            simp [List.append_assoc]
          · rw [hesc]
            by_cases h1f : 1 ≤ f
            · rw [if_pos h1f]
              simp [write_audit_log, update_task_frontmatter, invSt, ghostAttempt]
            · rw [if_neg h1f]
              simp [write_audit_log, invSt, ghostAttempt]
          · intro _
            by_cases h1f : 1 ≤ f
            · exact hstat h1f
            · have hs' := hfuel0 (by omega)
              rw [hs']
              show statusOf (write_audit_log
                (if 1 ≤ f then
                  update_task_frontmatter (invSt (ghostAttempt s cycle attempt) n)
                    [(lit "status", lit "ready")]
                else invSt (ghostAttempt s cycle attempt) n) (lit "failed")) =
                lit "in_progress"
              rw [if_neg h1f]
              exact statusOf_invSt _ n

theorem runCycles_fail (oracle : Nat → ExecBeh) (hfail : ∀ k, failish (oracle k) = true) :
    ∀ cyclesLeft cycle s n lastErr lastRes,
      (runCycles oracle cyclesLeft cycle s n lastErr lastRes).fin ≠ RunEnd.haltedRun →
      (runCycles oracle cyclesLeft cycle s n lastErr lastRes).s.trace.filterMap loopTag =
        s.trace.filterMap loopTag ++ cycleTags cycle cyclesLeft ∧
      (runCycles oracle cyclesLeft cycle s n lastErr lastRes).nInv = n + 3 * cyclesLeft := by
  intro cl
  induction cl with
  | zero =>
    intro cycle s n le lr _
    simp only [runCycles]
    constructor
    · unfold fail_task
      rw [if_pos (Or.inl rfl)]
      simp [write_audit_log, write_escalation, append_transition_history,
        update_task_frontmatter, List.filterMap_append, loopTag, cycleTags]
    · simp [fail_task, write_audit_log]
  | succ cl ih =>
    intro cycle s n le lr hnh
    simp only [runCycles] at hnh ⊢
    rcases runAttempts_fail oracle hfail (MAX_RETRIES + 1) cycle 1 (ghostCycle s cycle) n le lr
      with ⟨s1, n1, heq⟩ | ⟨s1, n1, le1, lr1, heq, htag, hn1, hesc, hstat, _⟩
    · rw [heq] at hnh
      exact absurd rfl hnh
    · rw [heq] at hnh ⊢
      simp only [] at hnh ⊢
      have hst : is_task_done_st s1.task = false :=
        is_task_done_st_of_ip _ (hstat (by omega))
      have hcond : ¬((s1.task.fileExists && is_task_done_st s1.task) = true) := by
        rw [hst]
        simp
      rw [if_neg hcond] at hnh ⊢
      obtain ⟨ih1, ih2⟩ := ih (cycle + 1)
        (if 0 < cl then { s1 with trace := s1.trace ++ [Ev.cooldownEv] } else s1)
        n1 le1 lr1 hnh
      constructor
      · rw [ih1]
        have hstep : (if 0 < cl then { s1 with trace := s1.trace ++ [Ev.cooldownEv] }
            else s1).trace.filterMap loopTag = s1.trace.filterMap loopTag := by
          split
          · simp [List.filterMap_append, loopTag]
          · rfl
        rw [hstep, htag]
        have hg : (ghostCycle s cycle).trace.filterMap loopTag =
            s.trace.filterMap loopTag ++ [(cycle, 0)] := by
          simp [ghostCycle, List.filterMap_append, loopTag]
        rw [hg]
        have hr : MAX_RETRIES + 1 = 3 := rfl
        rw [hr]
        simp only [cycleTags]
        rw [List.range'_succ, List.range'_succ, List.range'_succ]
        simp [List.append_assoc]
      · rw [ih2, hn1]
        have hr : MAX_RETRIES = 2 := rfl
        omega

/-- Claim C3 — attempt budget: with MAX_RETRIES = 2 (attempts = retries
+ 1 = 3), a run over a task whose executor invocation fails on every
call (failed outcome or exception) and which is not tier-halted runs its
loops in the order cycle 1, attempts 1, 2, 3 of cycle 1, cycle 2, ...:
the tag stream of the trace equals cycleTags 1 10, so exactly 3 attempts
happen within cycle 1 before cycle 2 begins (the first five tags are
(1,0) (1,1) (1,2) (1,3) (2,0)), never fewer, and each of the 10 cycles
consumes exactly 3 executor invocations. -/
theorem attempt_budget (oracle : Nat → ExecBeh) (t : TaskSt)
    (hfail : ∀ k, failish (oracle k) = true)
    (hnh : (execute_with_retry oracle t).fin ≠ RunEnd.haltedRun) :
    (execute_with_retry oracle t).s.trace.filterMap loopTag =
      cycleTags 1 MAX_COMPLETION_CYCLES ∧
    ((execute_with_retry oracle t).s.trace.filterMap loopTag).take 5 =
      [(1, 0), (1, 1), (1, 2), (1, 3), (2, 0)] ∧
    (execute_with_retry oracle t).nInv = 3 * MAX_COMPLETION_CYCLES := by
  unfold execute_with_retry at hnh ⊢
  obtain ⟨h1, h2⟩ :=
    runCycles_fail oracle hfail MAX_COMPLETION_CYCLES 1 ⟨t, [], []⟩ 0 [] none hnh
  refine ⟨?_, ?_, ?_⟩
  · rw [h1]
    rfl
  · rw [h1]
    rfl
  · rw [h2]
    exact Nat.zero_add _

def raisesOracle : Nat → ExecBeh := fun _ => ExecBeh.raises (lit "boom")

/-- Witness for C3: an executor that raises on every call satisfies the
always-failing hypothesis, the benign task is not halted, and the run
shows the three attempts of cycle 1 before cycle 2 starts. -/
theorem attempt_budget_witness :
    (∀ k, failish (raisesOracle k) = true) ∧
    (execute_with_retry raisesOracle benignTask).fin ≠ RunEnd.haltedRun ∧
    ((execute_with_retry raisesOracle benignTask).s.trace.filterMap loopTag).take 5 =
      [(1, 0), (1, 1), (1, 2), (1, 3), (2, 0)] := by
  have hf : ∀ k, failish (raisesOracle k) = true := fun k => rfl
  have hnh : (execute_with_retry raisesOracle benignTask).fin ≠ RunEnd.haltedRun := by
    decide!
  exact ⟨hf, hnh, (attempt_budget raisesOracle benignTask hf hnh).2.1⟩

/-- An event respects the failed-attempt reset discipline: a retry
attempt (attempt number at least 2) may only start with the persisted
status field equal to ready. -/
def attemptResetOK : Ev → Bool
  | Ev.attemptStart _ a st => decide (a < 2) || decide (st = lit "ready")
  | _ => true

def resetOK (tr : List Ev) : Bool := tr.all attemptResetOK

theorem resetOK_append_of (a b : List Ev) (ha : resetOK a = true)
    (hb : ∀ e ∈ b, attemptResetOK e = true) : resetOK (a ++ b) = true := by
  simp only [resetOK, List.all_append, Bool.and_eq_true]
  exact ⟨ha, List.all_eq_true.mpr hb⟩

theorem resetOK_snoc (x : List Ev) (e : Ev) (hx : resetOK x = true)
    (he : attemptResetOK e = true) : resetOK (x ++ [e]) = true := by
  refine resetOK_append_of x [e] hx ?_
  intro e' he'
  simp only [List.mem_cons, List.not_mem_nil, or_false] at he'
  subst he'
  exact he

theorem runAttempts_reset (oracle : Nat → ExecBeh) :
    ∀ fuel cycle attempt s n lastErr lastRes,
      resetOK s.trace = true →
      (2 ≤ attempt → 1 ≤ fuel → statusOf s = lit "ready") →
      resetOK (innerSt (runAttempts oracle fuel cycle attempt s n lastErr lastRes)).trace =
        true := by
  intro fuel
  induction fuel with
  | zero =>
    intro cycle attempt s n le lr hres _
    simp only [runAttempts, innerSt]
    exact hres
  | succ f ih =>
    intro cycle attempt s n le lr hres hstat
    have hok : attemptResetOK
        (Ev.attemptStart cycle attempt (dictGetD s.task.meta (lit "status") [])) = true := by
      unfold attemptResetOK
      by_cases h2a : 2 ≤ attempt
      · have hs := hstat h2a (by omega)
        unfold statusOf at hs
        rw [hs]
        simp
      · simp
        exact Or.inl (by omega)
    by_cases ht : 2 ≤ detect_tier s.task.meta (contentOf s.task)
    · rw [runAttempts_tier_halt oracle f cycle attempt s n le lr ht]
      have htr : (haltEngSt (ghostAttempt s cycle attempt)
          (detect_tier s.task.meta (contentOf s.task))).trace = s.trace ++
          [Ev.attemptStart cycle attempt (dictGetD s.task.meta (lit "status") []),
           Ev.write haltUpd1, Ev.write (haltUpd2 (detect_tier s.task.meta (contentOf s.task))),
           Ev.histEv (lit "block"),
           Ev.escalateEv (tierSev (detect_tier s.task.meta (contentOf s.task))),
           Ev.auditEv (lit "halted")] := by
        simp [haltEngSt, ghostAttempt, List.append_assoc]
      show resetOK (haltEngSt (ghostAttempt s cycle attempt)
        (detect_tier s.task.meta (contentOf s.task))).trace = true
      rw [htr]
      refine resetOK_append_of _ _ hres ?_
      intro e he
      simp only [List.mem_cons, List.not_mem_nil, or_false] at he
      rcases he with h | h | h | h | h | h <;> subst h
      · exact hok
      · rfl
      · rfl
      · rfl
      · rfl
      · rfl
    · simp only [runAttempts]
      have ht2 : detect_tier (ghostAttempt s cycle attempt).task.meta
          (contentOf (ghostAttempt s cycle attempt).task) < 2 := by
        have hg : (ghostAttempt s cycle attempt).task = s.task := rfl
        rw [hg]
        omega
      rw [invoke_sc_eq oracle (ghostAttempt s cycle attempt) n _ _ cycle ht2]
      rcases hbo : behToOut (oracle n) with r | msg
      · simp only []
        by_cases hd : r.status = lit "done"
        · rw [if_pos hd]
          simp only []
          rw [hd]
          rw [if_neg (by decide : ¬(lit "done" = lit "halted"))]
          rw [if_neg (by decide : ¬(lit "done" = lit "failed"))]
          by_cases hdone : is_task_done_st (update_task_frontmatter
              (invSt (ghostAttempt s cycle attempt) n)
              [(lit "status", lit "done")]).task = true
          · rw [if_pos hdone]
            simp only [innerSt]
            have htr : (write_audit_log (complete_task (update_task_frontmatter
                (invSt (ghostAttempt s cycle attempt) n) [(lit "status", lit "done")])
                (some r) cycle) (lit "success")).trace = s.trace ++
                [Ev.attemptStart cycle attempt (dictGetD s.task.meta (lit "status") []),
                 Ev.write haltUpd1, Ev.invoke n, Ev.write [(lit "status", lit "done")],
                 Ev.write [(lit "status", lit "done"), (lit "completed", tsNow),
                   (lit "completion_cycles", natStr cycle),
                   (lit "result_summary", r.summary.take 200)],
                 Ev.histEv (lit "complete"), Ev.finalizeEv cycle,
                 Ev.auditEv (lit "success")] := by
              simp [write_audit_log, complete_task, appendBody, append_transition_history,
                update_task_frontmatter, invSt, ghostAttempt, List.append_assoc]
            rw [htr]
            refine resetOK_append_of _ _ hres ?_
            intro e he
            simp only [List.mem_cons, List.not_mem_nil, or_false] at he
            rcases he with h | h | h | h | h | h | h | h <;> subst h
            · exact hok
            · rfl
            · rfl
            · rfl
            · rfl
            · rfl
            · rfl
            · rfl
          · rw [if_neg hdone]
            simp only [innerSt]
            have htr : (update_task_frontmatter (invSt (ghostAttempt s cycle attempt) n)
                [(lit "status", lit "done")]).trace = s.trace ++
                [Ev.attemptStart cycle attempt (dictGetD s.task.meta (lit "status") []),
                 Ev.write haltUpd1, Ev.invoke n,
                 Ev.write [(lit "status", lit "done")]] := by
              simp [update_task_frontmatter, invSt, ghostAttempt, List.append_assoc]
            rw [htr]
            refine resetOK_append_of _ _ hres ?_
            intro e he
            simp only [List.mem_cons, List.not_mem_nil, or_false] at he
            rcases he with h | h | h | h <;> subst h
            · exact hok
            · rfl
            · rfl
            · rfl
        · rw [if_neg hd]
          by_cases hip : r.status = lit "in_progress"
          · rw [if_pos hip]
            simp only []
            rw [hip]
            rw [if_neg (by decide : ¬(lit "in_progress" = lit "halted"))]
            rw [if_neg (by decide : ¬(lit "in_progress" = lit "failed"))]
            have hst : is_task_done_st (update_task_frontmatter
                (invSt (ghostAttempt s cycle attempt) n) (ipUpd r cycle)).task = false :=
              is_task_done_st_of_ip _ (statusOf_ipUpd _ r cycle)
            rw [if_neg (show ¬(is_task_done_st (append_transition_history
                (update_task_frontmatter (invSt (ghostAttempt s cycle attempt) n)
                  (ipUpd r cycle))
                (lit "/Needs_Action") (lit "/Needs_Action")
                (lit "reprocess (cycle " ++ natStr cycle ++ lit ")")
                (lit "orchestrator")).task = true) from
              fun hcontra => Bool.noConfusion (hst.symm.trans hcontra))]
            simp only [innerSt]
            have htr : (append_transition_history (update_task_frontmatter
                (invSt (ghostAttempt s cycle attempt) n) (ipUpd r cycle))
                (lit "/Needs_Action") (lit "/Needs_Action")
                (lit "reprocess (cycle " ++ natStr cycle ++ lit ")")
                (lit "orchestrator")).trace = s.trace ++
                [Ev.attemptStart cycle attempt (dictGetD s.task.meta (lit "status") []),
                 Ev.write haltUpd1, Ev.invoke n, Ev.write (ipUpd r cycle),
                 Ev.histEv (lit "reprocess (cycle " ++ natStr cycle ++ lit ")")] := by
              simp [append_transition_history, update_task_frontmatter, invSt, ghostAttempt,
                List.append_assoc]
            rw [htr]
            refine resetOK_append_of _ _ hres ?_
            intro e he
            simp only [List.mem_cons, List.not_mem_nil, or_false] at he
            rcases he with h | h | h | h | h <;> subst h
            · exact hok
            · rfl
            · rfl
            · rfl
            · rfl
          · rw [if_neg hip]
            simp only []
            have htrI : (invSt (ghostAttempt s cycle attempt) n).trace = s.trace ++
                [Ev.attemptStart cycle attempt (dictGetD s.task.meta (lit "status") []),
                 Ev.write haltUpd1, Ev.invoke n] := by
              simp [invSt, ghostAttempt, List.append_assoc]
            have hresI : resetOK (invSt (ghostAttempt s cycle attempt) n).trace = true := by
              rw [htrI]
              refine resetOK_append_of _ _ hres ?_
              intro e he
              simp only [List.mem_cons, List.not_mem_nil, or_false] at he
              rcases he with h | h | h <;> subst h
              · exact hok
              · rfl
              · rfl
            by_cases hh : r.status = lit "halted"
            · rw [if_pos hh]
              simp only [innerSt]
              exact hresI
            · rw [if_neg hh]
              by_cases hf : r.status = lit "failed"
              · rw [if_pos hf]
                by_cases h1f : 1 ≤ f
                · rw [if_pos h1f]
                  refine ih cycle (attempt + 1)
                    (update_task_frontmatter (invSt (ghostAttempt s cycle attempt) n)
                      [(lit "status", lit "ready")]) (n + 1) r.errors (some r) ?_ ?_
                  · have htr : (update_task_frontmatter
                        (invSt (ghostAttempt s cycle attempt) n)
                        [(lit "status", lit "ready")]).trace = s.trace ++
                        [Ev.attemptStart cycle attempt
                          (dictGetD s.task.meta (lit "status") []),
                         Ev.write haltUpd1, Ev.invoke n,
                         Ev.write [(lit "status", lit "ready")]] := by
                      simp [update_task_frontmatter, invSt, ghostAttempt, List.append_assoc]
                    rw [htr]
                    refine resetOK_append_of _ _ hres ?_
                    intro e he
                    simp only [List.mem_cons, List.not_mem_nil, or_false] at he
                    rcases he with h | h | h | h <;> subst h
                    · exact hok
                    · rfl
                    · rfl
                    · rfl
                  · intro _ _
                    exact statusOf_ready _
                · rw [if_neg h1f]
                  simp only [innerSt]
                  exact hresI
              · rw [if_neg hf]
                have hst : is_task_done_st (invSt (ghostAttempt s cycle attempt) n).task =
                    false := is_task_done_st_of_ip _ (statusOf_invSt _ n)
                rw [if_neg (fun hcontra => Bool.noConfusion (hst.symm.trans hcontra))]
                simp only [innerSt]
                exact hresI
      · simp only []
        refine ih cycle (attempt + 1)
          (write_audit_log
            (if 1 ≤ f then
              update_task_frontmatter (invSt (ghostAttempt s cycle attempt) n)
                [(lit "status", lit "ready")]
            else invSt (ghostAttempt s cycle attempt) n) (lit "failed"))
          (n + 1) (lit "Exception: " ++ msg) lr ?_ ?_
        · have htr : (write_audit_log
              (if 1 ≤ f then
                update_task_frontmatter (invSt (ghostAttempt s cycle attempt) n)
                  [(lit "status", lit "ready")]
              else invSt (ghostAttempt s cycle attempt) n) (lit "failed")).trace =
              s.trace ++
                (if 1 ≤ f then
                  [Ev.attemptStart cycle attempt (dictGetD s.task.meta (lit "status") []),
                   Ev.write haltUpd1, Ev.invoke n, Ev.write [(lit "status", lit "ready")],
                   Ev.auditEv (lit "failed")]
                else
                  [Ev.attemptStart cycle attempt (dictGetD s.task.meta (lit "status") []),
                   Ev.write haltUpd1, Ev.invoke n, Ev.auditEv (lit "failed")]) := by
            by_cases h1f : 1 ≤ f
            · rw [if_pos h1f, if_pos h1f]
              simp [write_audit_log, update_task_frontmatter, invSt, ghostAttempt,
                List.append_assoc]
            · rw [if_neg h1f, if_neg h1f]
              simp [write_audit_log, invSt, ghostAttempt, List.append_assoc]
          rw [htr]
          refine resetOK_append_of _ _ hres ?_
          intro e he
          by_cases h1f : 1 ≤ f
          · rw [if_pos h1f] at he
            simp only [List.mem_cons, List.not_mem_nil, or_false] at he
            rcases he with h | h | h | h | h <;> subst h
            · exact hok
            · rfl
            · rfl
            · rfl
            · rfl
          · rw [if_neg h1f] at he
            simp only [List.mem_cons, List.not_mem_nil, or_false] at he
            rcases he with h | h | h | h <;> subst h
            · exact hok
            · rfl
            · rfl
            · rfl
        · intro _ h1f
          show statusOf (write_audit_log
            (if 1 ≤ f then
              update_task_frontmatter (invSt (ghostAttempt s cycle attempt) n)
                [(lit "status", lit "ready")]
            else invSt (ghostAttempt s cycle attempt) n) (lit "failed")) = lit "ready"
          rw [if_pos h1f]
          exact statusOf_ready _

theorem runCycles_reset (oracle : Nat → ExecBeh) :
    ∀ cyclesLeft cycle s n lastErr lastRes,
      resetOK s.trace = true →
      resetOK (runCycles oracle cyclesLeft cycle s n lastErr lastRes).s.trace = true := by
  intro cl
  induction cl with
  | zero =>
    intro cycle s n le lr hres
    simp only [runCycles]
    unfold fail_task
    rw [if_pos (Or.inl rfl)]
    simp only [write_audit_log, write_escalation, append_transition_history,
      update_task_frontmatter]
    exact resetOK_snoc _ _ (resetOK_snoc _ _ (resetOK_snoc _ _
      (resetOK_snoc _ _ (resetOK_snoc _ _ hres rfl) rfl) rfl) rfl) rfl
  | succ cl ih =>
    intro cycle s n le lr hres
    have hresg : resetOK (ghostCycle s cycle).trace = true := by
      show resetOK (s.trace ++ [Ev.cycleStart cycle]) = true
      refine resetOK_append_of _ _ hres ?_
      intro e he
      simp only [List.mem_cons, List.not_mem_nil, or_false] at he
      subst he
      rfl
    have hra := runAttempts_reset oracle (MAX_RETRIES + 1) cycle 1 (ghostCycle s cycle)
      n le lr hresg (fun h2a _ => absurd h2a (by omega))
    simp only [runCycles]
    rcases heq : runAttempts oracle (MAX_RETRIES + 1) cycle 1 (ghostCycle s cycle) n le lr
      with ⟨s1, n1⟩ | ⟨s1, n1⟩ | ⟨s1, n1, le1, lr1⟩
    · rw [heq] at hra
      exact hra
    · rw [heq] at hra
      exact hra
    · rw [heq] at hra
      simp only [innerSt] at hra
      simp only []
      by_cases hcond : (s1.task.fileExists && is_task_done_st s1.task) = true
      · rw [if_pos hcond]
        show resetOK ((write_audit_log (complete_task s1 lr1 cycle) (lit "success")).trace) =
          true
        have htr : (write_audit_log (complete_task s1 lr1 cycle) (lit "success")).trace =
            s1.trace ++
              [Ev.write [(lit "status", lit "done"), (lit "completed", tsNow),
                (lit "completion_cycles", natStr cycle),
                (lit "result_summary", (match lr1 with
                  | some r => r.summary
                  | none => lit "Processed by orchestrator").take 200)],
               Ev.histEv (lit "complete"), Ev.finalizeEv cycle,
               Ev.auditEv (lit "success")] := by
          simp [write_audit_log, complete_task, appendBody, append_transition_history,
            update_task_frontmatter, List.append_assoc]
        rw [htr]
        refine resetOK_append_of _ _ hra ?_
        intro e he
        simp only [List.mem_cons, List.not_mem_nil, or_false] at he
        rcases he with h | h | h | h <;> subst h
        · rfl
        · rfl
        · rfl
        · rfl
      · rw [if_neg hcond]
        refine ih (cycle + 1)
          (if 0 < cl then { s1 with trace := s1.trace ++ [Ev.cooldownEv] } else s1)
          n1 le1 lr1 ?_
        by_cases h0 : 0 < cl
        · rw [if_pos h0]
          show resetOK (s1.trace ++ [Ev.cooldownEv]) = true
          refine resetOK_append_of _ _ hra ?_
          intro e he
          simp only [List.mem_cons, List.not_mem_nil, or_false] at he
          subst he
          rfl
        · rw [if_neg h0]
          exact hra

/-- Claim C8 — failed-attempt reset: a failing attempt (failed outcome
or exception) with budget remaining writes status ready back before the
retry, so every retry attempt within a cycle (attempt number at least 2)
starts with the persisted status equal to ready — in particular the task
is never left persisted as in_progress between attempts of a cycle. -/
theorem failed_attempt_reset (oracle : Nat → ExecBeh) (t : TaskSt)
    (c a : Nat) (st : Str)
    (hmem : Ev.attemptStart c a st ∈ (execute_with_retry oracle t).s.trace)
    (h2 : 2 ≤ a) : st = lit "ready" := by
  have hall : resetOK (execute_with_retry oracle t).s.trace = true := by
    unfold execute_with_retry
    exact runCycles_reset oracle MAX_COMPLETION_CYCLES 1 ⟨t, [], []⟩ 0 [] none rfl
  have he := List.all_eq_true.mp hall _ hmem
  unfold attemptResetOK at he
  have he' : a < 2 ∨ st = lit "ready" := by simpa using he
  rcases he' with hl | hr
  · exact absurd hl (by omega)
  · exact hr

/-- Witness for C8: with an executor that raises on every call, the
second attempt of cycle 1 starts with status ready persisted. -/
theorem failed_attempt_reset_witness :
    Ev.attemptStart 1 2 (lit "ready") ∈
      (execute_with_retry raisesOracle benignTask).s.trace ∧
    (2 : Nat) ≤ 2 ∧ lit "ready" = lit "ready" := by
  have hmem : Ev.attemptStart 1 2 (lit "ready") ∈
      (execute_with_retry raisesOracle benignTask).s.trace := by decide!
  exact ⟨hmem, by omega,
    failed_attempt_reset raisesOracle benignTask 1 2 (lit "ready") hmem (by omega)⟩

theorem containsChar_false_iff (l : Str) (c : Char) : l.contains c = false ↔ c ∉ l := by
  constructor
  · intro h1 hm
    have h2 : l.contains c = true := List.elem_iff.mpr hm
    rw [h1] at h2
    cases h2
  · intro h1
    cases h2 : l.contains c
    · rfl
    · exact absurd (List.elem_iff.mp h2) h1

theorem prefix3_shape (s : Str) (hp : threeDashes.isPrefixOf s = true) :
    ∃ t, s = '-' :: '-' :: '-' :: t := by
  rw [show threeDashes = ['-', '-', '-'] from rfl] at hp
  rcases s with _ | ⟨a, _ | ⟨b, _ | ⟨c, t⟩⟩⟩
  · simp [List.isPrefixOf] at hp
  · simp [List.isPrefixOf] at hp
  · simp [List.isPrefixOf] at hp
  · simp [List.isPrefixOf] at hp
    exact ⟨t, by rw [← hp.1, ← hp.2.1, ← hp.2.2]⟩

theorem prefix3_intro (t : Str) : threeDashes.isPrefixOf ('-' :: '-' :: '-' :: t) = true := by
  rw [show threeDashes = ['-', '-', '-'] from rfl]
  simp [List.isPrefixOf]

theorem containsSub_false_iff (sep s : Str) :
    containsSub sep s = false ↔ findSub sep s = none := by
  unfold containsSub
  rcases hf : findSub sep s with _ | pq <;> simp

theorem containsSub_cons_false (sep : Str) (c : Char) (r : Str)
    (h : containsSub sep (c :: r) = false) : containsSub sep r = false := by
  unfold containsSub at h ⊢
  simp only [findSub] at h
  by_cases hp : sep.isPrefixOf (c :: r) = true
  · rw [if_pos hp] at h
    simp at h
  · rw [if_neg hp] at h
    rcases hf : findSub sep r with _ | ⟨pre, post⟩
    · simp
    · rw [hf] at h
      simp at h

theorem containsSub_break (a : Str) (c : Char) (b : Str) (hc : c ≠ '-')
    (ha : containsSub threeDashes a = false) (hb : containsSub threeDashes b = false) :
    containsSub threeDashes (a ++ c :: b) = false := by
  induction a with
  | nil =>
    simp only [List.nil_append]
    unfold containsSub
    simp only [findSub]
    have hp : ¬(threeDashes.isPrefixOf (c :: b) = true) := by
      intro hh
      obtain ⟨t, ht⟩ := prefix3_shape _ hh
      injection ht with h1 _
      exact hc h1
    rw [if_neg hp]
    rw [(containsSub_false_iff _ _).mp hb]
    rfl
  | cons a0 a' ih =>
    simp only [List.cons_append]
    unfold containsSub
    simp only [findSub, List.append_eq]
    have hp : ¬(threeDashes.isPrefixOf (a0 :: (a' ++ c :: b)) = true) := by
      intro hh
      obtain ⟨t, ht⟩ := prefix3_shape _ hh
      injection ht with h1 hrest
      rcases a' with _ | ⟨a1, a''⟩
      · simp only [List.nil_append] at hrest
        injection hrest with h2 _
        exact hc h2
      · simp only [List.cons_append] at hrest
        injection hrest with h2 hrest2
        rcases a'' with _ | ⟨a2, a3⟩
        · simp only [List.nil_append] at hrest2
          injection hrest2 with h3 _
          exact hc h3
        · simp only [List.cons_append] at hrest2
          injection hrest2 with h3 _
          subst h1
          subst h2
          subst h3
          unfold containsSub at ha
          simp only [findSub] at ha
          rw [if_pos (prefix3_intro a3)] at ha
          simp at ha
    rw [if_neg hp]
    have hfb := (containsSub_false_iff _ _).mp
      (ih (containsSub_cons_false _ _ _ ha))
    rw [hfb]
    rfl

theorem findSub_newline (a b : Str) (ha : containsSub threeDashes a = false) :
    findSub threeDashes (a ++ '\n' :: b) =
      (match findSub threeDashes b with
       | some pq => some (a ++ '\n' :: pq.1, pq.2)
       | none => none) := by
  induction a with
  | nil =>
    simp only [List.nil_append, findSub]
    have hp : ¬(threeDashes.isPrefixOf ('\n' :: b) = true) := by
      intro hh
      obtain ⟨t, ht⟩ := prefix3_shape _ hh
      injection ht with h1 _
      exact absurd h1 (by decide)
    rw [if_neg hp]
    rcases hf : findSub threeDashes b with _ | ⟨pre, post⟩
    · rfl
    · rfl
  | cons a0 a' ih =>
    simp only [List.cons_append, findSub, List.append_eq]
    have hp : ¬(threeDashes.isPrefixOf (a0 :: (a' ++ '\n' :: b)) = true) := by
      intro hh
      obtain ⟨t, ht⟩ := prefix3_shape _ hh
      injection ht with h1 hrest
      rcases a' with _ | ⟨a1, a''⟩
      · simp only [List.nil_append] at hrest
        injection hrest with h2 _
        exact absurd h2 (by decide)
      · simp only [List.cons_append] at hrest
        injection hrest with h2 hrest2
        rcases a'' with _ | ⟨a2, a3⟩
        · simp only [List.nil_append] at hrest2
          injection hrest2 with h3 _
          exact absurd h3 (by decide)
        · simp only [List.cons_append] at hrest2
          injection hrest2 with h3 _
          subst h1
          subst h2
          subst h3
          unfold containsSub at ha
          simp only [findSub] at ha
          rw [if_pos (prefix3_intro a3)] at ha
          simp at ha
    rw [if_neg hp]
    rw [ih (containsSub_cons_false _ _ _ ha)]
    rcases hf : findSub threeDashes b with _ | ⟨pre, post⟩
    · rfl
    · rfl

theorem findSub_start (r : Str) : findSub threeDashes (threeDashes ++ r) = some ([], r) := by
  rw [show threeDashes ++ r = '-' :: '-' :: '-' :: r from rfl]
  simp only [findSub]
  rw [if_pos (prefix3_intro r)]
  rfl

/-- The frontmatter block as rendered after the opening dashes: the
entry lines, each followed by a newline, then the closing dashes. -/
def linesStr : List Str → Str
  | [] => threeDashes
  | l :: ls => l ++ '\n' :: linesStr ls

/-- The entry lines each followed by a newline. -/
def joinNL : List Str → Str
  | [] => []
  | l :: ls => l ++ '\n' :: joinNL ls

/-- The entry lines joined by single newlines (no trailing newline). -/
def joinStrip : List Str → Str
  | [] => []
  | [l] => l
  | l :: l' :: ls => l ++ '\n' :: joinStrip (l' :: ls)

theorem linesStr_eq (ls : List Str) : linesStr ls = joinNL ls ++ threeDashes := by
  induction ls with
  | nil => rfl
  | cons l ls ih =>
    simp only [linesStr, joinNL, ih, List.cons_append, List.append_assoc]

theorem joinNL_eq (ls : List Str) (h : ls ≠ []) :
    joinNL ls = joinStrip ls ++ ['\n'] := by
  induction ls with
  | nil => exact absurd rfl h
  | cons l ls ih =>
    rcases ls with _ | ⟨l', ls'⟩
    · rfl
    · show l ++ '\n' :: joinNL (l' :: ls') = (l ++ '\n' :: joinStrip (l' :: ls')) ++ ['\n']
      rw [ih (by simp)]
      simp [List.append_assoc]

theorem findSub_linesStr (ls : List Str)
    (h : ∀ l ∈ ls, containsSub threeDashes l = false) :
    findSub threeDashes (linesStr ls) = some (joinNL ls, []) := by
  induction ls with
  | nil =>
    have := findSub_start []
    rw [List.append_nil] at this
    exact this
  | cons l ls ih =>
    show findSub threeDashes (l ++ '\n' :: linesStr ls) = _
    rw [findSub_newline l (linesStr ls) (h l (List.mem_cons_self _ _))]
    rw [ih (fun x hx => h x (List.mem_cons_of_mem _ hx))]
    rfl

theorem intercalate_single (sep a : Str) : List.intercalate sep [a] = a := by
  simp [List.intercalate, List.intersperse]

theorem intercalate_cons₂ (sep : Str) (a b : Str) (l : List Str) :
    List.intercalate sep (a :: b :: l) = a ++ sep ++ List.intercalate sep (b :: l) := by
  simp [List.intercalate, List.intersperse, List.append_assoc]

theorem intercalate_closing (ls : List Str) :
    List.intercalate (lit "\n") (ls ++ [threeDashes]) = linesStr ls := by
  induction ls with
  | nil => exact intercalate_single _ _
  | cons l ls ih =>
    rcases ls with _ | ⟨l', ls'⟩
    · simp only [List.nil_append, List.cons_append]
      rw [intercalate_cons₂, intercalate_single]
      simp [linesStr, lit, List.append_assoc]
    · simp only [List.cons_append] at ih ⊢
      rw [intercalate_cons₂, ih]
      simp [linesStr, lit, List.append_assoc]

/-- Whether the optional character satisfies the predicate (trivially
true when absent). -/
def optAll (p : Char → Bool) : Option Char → Bool
  | none => true
  | some c => p c

theorem optAll_nospace (o : Option Char) (h : optAll (fun c => !pyIsSpace c) o = true) :
    ∀ x, o = some x → pyIsSpace x = false := by
  intro x hx
  subst hx
  have h2 : (!pyIsSpace x) = true := h
  simpa using h2

/-- Well-formedness of one frontmatter entry for the round-trip law: the
key is nonempty, has no surrounding whitespace, and contains no colon,
newline or triple dash; the value is nonempty, has no surrounding
whitespace, and contains no newline, triple dash, double quote or
apostrophe. -/
def wfEntry (kv : Str × Str) : Prop :=
  kv.1 ≠ [] ∧
  optAll (fun c => !pyIsSpace c) kv.1.head? = true ∧
  optAll (fun c => !pyIsSpace c) kv.1.getLast? = true ∧
  kv.1.contains ':' = false ∧
  kv.1.contains '\n' = false ∧
  containsSub threeDashes kv.1 = false ∧
  kv.2 ≠ [] ∧
  optAll (fun c => !pyIsSpace c) kv.2.head? = true ∧
  optAll (fun c => !pyIsSpace c) kv.2.getLast? = true ∧
  kv.2.contains '\n' = false ∧
  containsSub threeDashes kv.2 = false ∧
  kv.2.contains '"' = false ∧
  kv.2.contains '\x27' = false

instance wfEntry_decidable (kv : Str × Str) : Decidable (wfEntry kv) := by
  unfold wfEntry
  infer_instance

/-- Well-formed metadata record: distinct keys and well-formed entries. -/
def WellFormedFM (m : List (Str × Str)) : Prop :=
  (m.map Prod.fst).Nodup ∧ ∀ kv ∈ m, wfEntry kv

instance WellFormedFM_decidable (m : List (Str × Str)) : Decidable (WellFormedFM m) := by
  unfold WellFormedFM
  infer_instance

theorem pyStrip_cons_space (c : Char) (s : Str) (h : pyIsSpace c = true) :
    pyStrip (c :: s) = pyStrip s := by
  unfold pyStrip
  rw [List.dropWhile_cons, if_pos h]

theorem getLast?_cons_of_ne_nil (c : Char) (t : Str) (h : t ≠ []) :
    (c :: t).getLast? = t.getLast? := by
  have h2 := List.getLast?_append_of_ne_nil [c] h
  simpa using h2

theorem pyStrip_of_ends (s : Str) (hh : ∀ x, s.head? = some x → pyIsSpace x = false)
    (hl : ∀ x, s.getLast? = some x → pyIsSpace x = false) : pyStrip s = s := by
  rcases s with _ | ⟨c, t⟩
  · rfl
  · unfold pyStrip
    rw [List.dropWhile_cons, if_neg (by simp [hh c rfl])]
    rcases ht : t.reverse with _ | ⟨cl, tr⟩
    · have ht0 : t = [] := by rwa [List.reverse_eq_nil_iff] at ht
      subst ht0
      rw [show ([c] : Str).reverse = [c] from rfl]
      rw [List.dropWhile_cons, if_neg (by simp [hh c rfl])]
      rfl
    · have h1 : t ≠ [] := by
        intro h0
        rw [h0] at ht
        simp at ht
      have hcl : pyIsSpace cl = false := by
        apply hl
        rw [getLast?_cons_of_ne_nil c t h1, ← List.head?_reverse, ht]
        rfl
      rw [show (c :: t).reverse = t.reverse ++ [c] from by simp]
      rw [ht]
      rw [show (cl :: tr) ++ [c] = cl :: (tr ++ [c]) from rfl]
      rw [List.dropWhile_cons, if_neg (by simp [hcl])]
      rw [show cl :: (tr ++ [c]) = (cl :: tr) ++ [c] from rfl, ← ht]
      simp

theorem pyStrip_wrap (c : Char) (t : Str) (hc : pyIsSpace c = false)
    (hl : ∀ x, (c :: t).getLast? = some x → pyIsSpace x = false) :
    pyStrip ('\n' :: ((c :: t) ++ ['\n'])) = c :: t := by
  rw [pyStrip_cons_space '\n' _ (by decide)]
  rw [show (c :: t) ++ ['\n'] = c :: (t ++ ['\n']) from rfl]
  unfold pyStrip
  rw [List.dropWhile_cons, if_neg (by simp [hc])]
  rw [show (c :: (t ++ ['\n'])).reverse = '\n' :: (t.reverse ++ [c]) from by simp]
  rw [List.dropWhile_cons, if_pos (by decide : pyIsSpace '\n' = true)]
  rcases ht : t.reverse with _ | ⟨cl, tr⟩
  · have ht0 : t = [] := by rwa [List.reverse_eq_nil_iff] at ht
    subst ht0
    rw [show (([] : Str) ++ [c]) = [c] from rfl]
    rw [List.dropWhile_cons, if_neg (by simp [hc])]
    rfl
  · have h1 : t ≠ [] := by
      intro h0
      rw [h0] at ht
      simp at ht
    have hcl : pyIsSpace cl = false := by
      apply hl
      rw [getLast?_cons_of_ne_nil c t h1, ← List.head?_reverse, ht]
      rfl
    rw [show (cl :: tr) ++ [c] = cl :: (tr ++ [c]) from rfl]
    rw [List.dropWhile_cons, if_neg (by simp [hcl])]
    rw [show cl :: (tr ++ [c]) = (cl :: tr) ++ [c] from rfl, ← ht]
    simp

theorem containsChar_tail (c x : Char) (t : Str) (h : (c :: t).contains x = false) :
    t.contains x = false ∧ ¬(c = x) := by
  rw [containsChar_false_iff] at h
  constructor
  · rw [containsChar_false_iff]
    intro hm
    exact h (List.mem_cons_of_mem _ hm)
  · intro h0
    subst h0
    exact h (List.mem_cons_self _ _)

theorem containsChar_append_right (a : Str) (c : Char) (b : Str) :
    (a ++ c :: b).contains c = true := by
  cases hc : (a ++ c :: b).contains c
  · exact absurd (show c ∈ a ++ c :: b by simp) ((containsChar_false_iff _ _).mp hc)
  · rfl

theorem splitChar_ne_nil (sep : Char) (s : Str) : splitChar sep s ≠ [] := by
  induction s with
  | nil => simp [splitChar]
  | cons c t ih =>
    rcases h : splitChar sep t with _ | ⟨h0, t0⟩
    · exact absurd h ih
    · simp only [splitChar, h]
      split <;> simp

theorem splitChar_no (sep : Char) (l : Str) (h : l.contains sep = false) :
    splitChar sep l = [l] := by
  induction l with
  | nil => rfl
  | cons c t ih =>
    obtain ⟨ht, hc⟩ := containsChar_tail c sep t h
    simp only [splitChar, ih ht]
    rw [if_neg hc]

theorem splitChar_append (sep : Char) (l rest : Str) (h : l.contains sep = false) :
    splitChar sep (l ++ sep :: rest) = l :: splitChar sep rest := by
  induction l with
  | nil =>
    simp only [List.nil_append, splitChar]
    rcases hs : splitChar sep rest with _ | ⟨h0, t0⟩
    · exact absurd hs (splitChar_ne_nil sep rest)
    · simp
  | cons c t ih =>
    obtain ⟨ht, hc⟩ := containsChar_tail c sep t h
    simp only [List.cons_append, splitChar, List.append_eq, ih ht]
    rw [if_neg hc]

theorem partitionChar_append (c : Char) (a b : Str) (h : a.contains c = false) :
    partitionChar c (a ++ c :: b) = (a, true, b) := by
  induction a with
  | nil =>
    simp only [List.nil_append, partitionChar]
    simp
  | cons x t ih =>
    obtain ⟨ht, hx⟩ := containsChar_tail x c t h
    simp only [List.cons_append, partitionChar, List.append_eq]
    rw [if_neg hx, ih ht]

theorem pyStripChars_id (cs : List Char) (s : Str) (h : ∀ x ∈ s, cs.contains x = false) :
    pyStripChars cs s = s := by
  have hd : ∀ l : Str, (∀ x ∈ l, cs.contains x = false) →
      List.dropWhile (fun c => cs.contains c) l = l := by
    intro l hl
    rcases l with _ | ⟨c, t⟩
    · rfl
    · rw [List.dropWhile_cons, if_neg (by
        simpa using (containsChar_false_iff cs c).mp (hl c (List.mem_cons_self _ _)))]
  unfold pyStripChars
  rw [hd s h, hd s.reverse (fun x hx => h x (List.mem_reverse.mp hx))]
  simp

theorem pyStripChars_wrap (q : Char) (v : Str) (hv : v ≠ []) (h : ∀ x ∈ v, ¬(x = q)) :
    pyStripChars [q] (q :: (v ++ [q])) = v := by
  unfold pyStripChars
  rw [List.dropWhile_cons, if_pos (by simp)]
  rcases v with _ | ⟨c, t⟩
  · exact absurd rfl hv
  · rw [show (c :: t) ++ [q] = c :: (t ++ [q]) from rfl]
    rw [List.dropWhile_cons, if_neg (by simp [h c (List.mem_cons_self _ _)])]
    rw [show (c :: (t ++ [q])).reverse = q :: (t.reverse ++ [c]) from by simp]
    rw [List.dropWhile_cons, if_pos (by simp)]
    rcases ht : t.reverse with _ | ⟨cl, tr⟩
    · have ht0 : t = [] := by rwa [List.reverse_eq_nil_iff] at ht
      subst ht0
      rw [show (([] : Str) ++ [c]) = [c] from rfl]
      rw [List.dropWhile_cons, if_neg (by simp [h c (List.mem_cons_self _ _)])]
      rfl
    · have hcl : cl ∈ t := by
        have h2 : cl ∈ t.reverse := by
          rw [ht]
          exact List.mem_cons_self _ _
        exact List.mem_reverse.mp h2
      rw [show (cl :: tr) ++ [c] = cl :: (tr ++ [c]) from rfl]
      rw [List.dropWhile_cons,
        if_neg (by simp [h cl (List.mem_cons_of_mem _ hcl)])]
      rw [show cl :: (tr ++ [c]) = (cl :: tr) ++ [c] from rfl, ← ht]
      simp

theorem renderFMEntry_line (k v : Str) (h : wfEntry (k, v)) :
    (renderFMEntry (k, v)).contains '\n' = false ∧
    containsSub threeDashes (renderFMEntry (k, v)) = false ∧
    (∃ c t, renderFMEntry (k, v) = c :: t ∧ pyIsSpace c = false) ∧
    (∀ x, (renderFMEntry (k, v)).getLast? = some x → pyIsSpace x = false) ∧
    (∀ acc, parseFMLine acc (renderFMEntry (k, v)) = dictSet acc k v) := by
  obtain ⟨h1, h2, h3, h4, h5, h6, h7, h8, h9, h10, h11, h12, h13⟩ := h
  have hkh := optAll_nospace _ h2
  have hkl := optAll_nospace _ h3
  have hvh := optAll_nospace _ h8
  have hvl := optAll_nospace _ h9
  have hstripk : pyStrip k = k := pyStrip_of_ends k hkh hkl
  have hstripv : pyStrip v = v := pyStrip_of_ends v hvh hvl
  have hknl : '\n' ∉ k := (containsChar_false_iff _ _).mp h5
  have hvnl : '\n' ∉ v := (containsChar_false_iff _ _).mp h10
  have hvq : '"' ∉ v := (containsChar_false_iff _ _).mp h12
  have hva : '\x27' ∉ v := (containsChar_false_iff _ _).mp h13
  have hb0 : containsSub threeDashes ([] : Str) = false := by decide
  have hapos : pyStripChars ['\x27'] v = v := by
    refine pyStripChars_id _ _ ?_
    intro x hx
    refine (containsChar_false_iff _ _).mpr ?_
    intro hm
    simp at hm
    subst hm
    exact hva hx
  rcases hk : k with _ | ⟨kc, kt⟩
  · exact absurd rfl (hk ▸ h1)
  rw [← hk]
  have hkc : pyIsSpace kc = false := hkh kc (by rw [hk]; rfl)
  by_cases hq : (v.contains ' ' || v.contains ',') = true
  · have hline : renderFMEntry (k, v) = k ++ ':' :: ' ' :: '"' :: (v ++ ['"']) := by
      unfold renderFMEntry
      rw [if_pos hq]
      rw [show lit ": \"" = [':', ' ', '"'] from rfl, show lit "\"" = ['"'] from rfl]
      simp [List.append_assoc]
    refine ⟨?_, ?_, ?_, ?_, ?_⟩
    · refine (containsChar_false_iff _ _).mpr ?_
      rw [hline]
      intro hm
      rcases List.mem_append.mp hm with hm1 | hm2
      · exact hknl hm1
      · simp at hm2
        exact hvnl hm2
    · rw [hline]
      have hc4 : containsSub threeDashes (v ++ '"' :: []) = false :=
        containsSub_break v '"' [] (by decide) h11 hb0
      have hc3 : containsSub threeDashes ('"' :: (v ++ ['"'])) = false :=
        containsSub_break [] '"' (v ++ ['"']) (by decide) hb0 hc4
      have hc2 : containsSub threeDashes (' ' :: '"' :: (v ++ ['"'])) = false :=
        containsSub_break [] ' ' ('"' :: (v ++ ['"'])) (by decide) hb0 hc3
      exact containsSub_break k ':' (' ' :: '"' :: (v ++ ['"'])) (by decide) h6 hc2
    · refine ⟨kc, kt ++ ':' :: ' ' :: '"' :: (v ++ ['"']), ?_, hkc⟩
      rw [hline, hk]
      rfl
    · intro x hx
      rw [hline, List.getLast?_append_of_ne_nil k (by simp),
        getLast?_cons_of_ne_nil ':' _ (by simp),
        getLast?_cons_of_ne_nil ' ' _ (by simp),
        getLast?_cons_of_ne_nil '"' _ (by simp),
        List.getLast?_append_of_ne_nil v (by simp)] at hx
      injection hx with hx1
      rw [← hx1]
      decide
    · intro acc
      rw [hline]
      unfold parseFMLine
      rw [if_pos (containsChar_append_right k ':' _)]
      rw [partitionChar_append ':' k _ h4]
      simp only []
      rw [hstripk]
      rw [pyStrip_cons_space ' ' _ (by decide)]
      have hstq : pyStrip ('"' :: (v ++ ['"'])) = '"' :: (v ++ ['"']) := by
        refine pyStrip_of_ends _ ?_ ?_
        · intro x hx
          injection hx with hx1
          rw [← hx1]
          decide
        · intro x hx
          rw [getLast?_cons_of_ne_nil '"' _ (by simp),
            List.getLast?_append_of_ne_nil v (by simp)] at hx
          injection hx with hx1
          rw [← hx1]
          decide
      rw [hstq]
      have hwq : pyStripChars ['"'] ('"' :: (v ++ ['"'])) = v := by
        refine pyStripChars_wrap '"' v h7 ?_
        intro x hx hxq
        exact hvq (hxq ▸ hx)
      rw [hwq, hapos]
  · have hline : renderFMEntry (k, v) = k ++ ':' :: ' ' :: v := by
      unfold renderFMEntry
      rw [if_neg hq]
      rw [show lit ": " = [':', ' '] from rfl]
      simp [List.append_assoc]
    refine ⟨?_, ?_, ?_, ?_, ?_⟩
    · refine (containsChar_false_iff _ _).mpr ?_
      rw [hline]
      intro hm
      rcases List.mem_append.mp hm with hm1 | hm2
      · exact hknl hm1
      · simp at hm2
        exact hvnl hm2
    · rw [hline]
      have hc2 : containsSub threeDashes (' ' :: v) = false :=
        containsSub_break [] ' ' v (by decide) hb0 h11
      exact containsSub_break k ':' (' ' :: v) (by decide) h6 hc2
    · refine ⟨kc, kt ++ ':' :: ' ' :: v, ?_, hkc⟩
      rw [hline, hk]
      rfl
    · intro x hx
      rw [hline, List.getLast?_append_of_ne_nil k (by simp),
        getLast?_cons_of_ne_nil ':' _ (by simp),
        getLast?_cons_of_ne_nil ' ' _ h7] at hx
      exact hvl x hx
    · intro acc
      rw [hline]
      unfold parseFMLine
      rw [if_pos (containsChar_append_right k ':' _)]
      rw [partitionChar_append ':' k _ h4]
      simp only []
      rw [hstripk]
      rw [pyStrip_cons_space ' ' _ (by decide)]
      rw [hstripv]
      have hnq : pyStripChars ['"'] v = v := by
        refine pyStripChars_id _ _ ?_
        intro x hx
        refine (containsChar_false_iff _ _).mpr ?_
        intro hm
        simp at hm
        subst hm
        exact hvq hx
      rw [hnq, hapos]

theorem dictSet_append (acc : List (Str × Str)) (k v : Str)
    (h : ∀ kv ∈ acc, ¬(kv.1 = k)) : dictSet acc k v = acc ++ [(k, v)] := by
  induction acc with
  | nil => rfl
  | cons a t ih =>
    simp only [dictSet]
    rw [if_neg (h a (List.mem_cons_self _ _))]
    rw [ih (fun kv hkv => h kv (List.mem_cons_of_mem _ hkv))]
    rfl

theorem foldl_parse (m : List (Str × Str)) :
    ∀ acc, (∀ kv ∈ m, wfEntry kv) → (m.map Prod.fst).Nodup →
      (∀ kv ∈ m, ∀ kv' ∈ acc, ¬(kv'.1 = kv.1)) →
      (m.map renderFMEntry).foldl parseFMLine acc = acc ++ m := by
  induction m with
  | nil =>
    intro acc _ _ _
    simp
  | cons a t ih =>
    intro acc hwf hnd hdisj
    rcases a with ⟨k, v⟩
    simp only [List.map_cons, List.foldl_cons]
    rw [(renderFMEntry_line k v (hwf _ (List.mem_cons_self _ _))).2.2.2.2 acc]
    rw [dictSet_append acc k v (fun kv hkv => hdisj (k, v) (List.mem_cons_self _ _) kv hkv)]
    have hnd' : ((k : Str) :: t.map Prod.fst).Nodup := by
      rw [List.map_cons] at hnd
      exact hnd
    have hknotin : (k : Str) ∉ t.map Prod.fst := (List.nodup_cons.mp hnd').1
    rw [ih (acc ++ [(k, v)]) (fun kv hkv => hwf kv (List.mem_cons_of_mem _ hkv))
      (List.nodup_cons.mp hnd').2 ?_]
    · simp [List.append_assoc]
    · intro kv hkv kv' hkv'
      rcases List.mem_append.mp hkv' with hacc | hone
      · exact hdisj kv (List.mem_cons_of_mem _ hkv) kv' hacc
      · simp at hone
        subst hone
        intro heq
        apply hknotin
        have hmem : kv.1 ∈ t.map Prod.fst := List.mem_map_of_mem Prod.fst hkv
        rw [← heq] at hmem
        exact hmem

theorem render_frontmatter_eq (m : List (Str × Str)) :
    render_frontmatter m = threeDashes ++ '\n' :: linesStr (m.map renderFMEntry) := by
  unfold render_frontmatter
  rcases hm : m.map renderFMEntry with _ | ⟨e, es⟩
  · simp only [List.nil_append]
    rw [intercalate_cons₂, intercalate_single]
    simp [linesStr, lit, List.append_assoc]
  · simp only [List.cons_append]
    rw [intercalate_cons₂]
    rw [show e :: (es ++ [threeDashes]) = (e :: es) ++ [threeDashes] from rfl,
      intercalate_closing]
    simp [lit, List.append_assoc]

theorem joinStrip_ne_nil (ls : List Str) (h : ls ≠ []) (hl : ∀ l ∈ ls, l ≠ []) :
    joinStrip ls ≠ [] := by
  rcases ls with _ | ⟨l, ls'⟩
  · exact absurd rfl h
  · rcases ls' with _ | ⟨l', ls''⟩
    · exact hl l (List.mem_cons_self _ _)
    · show l ++ '\n' :: joinStrip (l' :: ls'') ≠ []
      simp

theorem joinStrip_cons_head (c : Char) (t : Str) (ls : List Str) :
    ∃ t', joinStrip ((c :: t) :: ls) = c :: t' := by
  rcases ls with _ | ⟨l', ls'⟩
  · exact ⟨t, rfl⟩
  · exact ⟨t ++ '\n' :: joinStrip (l' :: ls'), rfl⟩

theorem joinStrip_last (ls : List Str) :
    ∀ (h : ls ≠ []) (hne : ∀ l ∈ ls, l ≠ [])
      (hl : ∀ l ∈ ls, ∀ x, l.getLast? = some x → pyIsSpace x = false)
      (x : Char), (joinStrip ls).getLast? = some x → pyIsSpace x = false := by
  induction ls with
  | nil =>
    intro h
    exact absurd rfl h
  | cons l ls' ih =>
    intro _ hne hl x hx
    rcases ls' with _ | ⟨l', ls''⟩
    · exact hl l (List.mem_cons_self _ _) x hx
    · rw [show joinStrip (l :: l' :: ls'') = l ++ '\n' :: joinStrip (l' :: ls'') from rfl] at hx
      rw [List.getLast?_append_of_ne_nil l (by simp)] at hx
      rw [getLast?_cons_of_ne_nil '\n' _ (joinStrip_ne_nil (l' :: ls'') (by simp)
        (fun a ha => hne a (List.mem_cons_of_mem _ ha)))] at hx
      exact ih (by simp) (fun a ha => hne a (List.mem_cons_of_mem _ ha))
        (fun a ha => hl a (List.mem_cons_of_mem _ ha)) x hx

theorem splitChar_joinStrip (ls : List Str) :
    ∀ (h : ls ≠ []) (hnl : ∀ l ∈ ls, l.contains '\n' = false),
      splitChar '\n' (joinStrip ls) = ls := by
  induction ls with
  | nil =>
    intro h
    exact absurd rfl h
  | cons l ls' ih =>
    intro _ hnl
    rcases ls' with _ | ⟨l', ls''⟩
    · exact splitChar_no '\n' l (hnl l (List.mem_cons_self _ _))
    · rw [show joinStrip (l :: l' :: ls'') = l ++ '\n' :: joinStrip (l' :: ls'') from rfl]
      rw [splitChar_append '\n' l _ (hnl l (List.mem_cons_self _ _))]
      rw [ih (by simp) (fun a ha => hnl a (List.mem_cons_of_mem _ ha))]

theorem pySplitN_render (entries : List Str)
    (h : ∀ l ∈ entries, containsSub threeDashes l = false) :
    pySplitN threeDashes 2 (threeDashes ++ '\n' :: linesStr entries) =
      [[], '\n' :: joinNL entries, []] := by
  have e1 : pySplitN threeDashes 2 (threeDashes ++ '\n' :: linesStr entries) =
      [] :: pySplitN threeDashes 1 ('\n' :: linesStr entries) := by
    show (match findSub threeDashes (threeDashes ++ '\n' :: linesStr entries) with
      | none => [threeDashes ++ '\n' :: linesStr entries]
      | some (pre, post) => pre :: pySplitN threeDashes 1 post) =
      [] :: pySplitN threeDashes 1 ('\n' :: linesStr entries)
    rw [findSub_start]
  have hf : findSub threeDashes ('\n' :: linesStr entries) =
      some ('\n' :: joinNL entries, []) := by
    have h2 := findSub_newline [] (linesStr entries) (by decide)
    rw [findSub_linesStr entries h] at h2
    simp only [List.nil_append] at h2
    exact h2
  have e2 : pySplitN threeDashes 1 ('\n' :: linesStr entries) =
      ('\n' :: joinNL entries) :: pySplitN threeDashes 0 [] := by
    show (match findSub threeDashes ('\n' :: linesStr entries) with
      | none => ['\n' :: linesStr entries]
      | some (pre, post) => pre :: pySplitN threeDashes 0 post) =
      ('\n' :: joinNL entries) :: pySplitN threeDashes 0 []
    rw [hf]
  rw [e1, e2]
  rfl

theorem parse_render (m : List (Str × Str)) (h : WellFormedFM m) :
    parse_frontmatter (render_frontmatter m) = (m, []) := by
  obtain ⟨hnd, hwf⟩ := h
  have hlines : ∀ l ∈ m.map renderFMEntry, containsSub threeDashes l = false := by
    intro l hl
    obtain ⟨kv, hkv, rfl⟩ := List.mem_map.mp hl
    rcases kv with ⟨k, v⟩
    exact (renderFMEntry_line k v (hwf _ hkv)).2.1
  have hnl : ∀ l ∈ m.map renderFMEntry, l.contains '\n' = false := by
    intro l hl
    obtain ⟨kv, hkv, rfl⟩ := List.mem_map.mp hl
    rcases kv with ⟨k, v⟩
    exact (renderFMEntry_line k v (hwf _ hkv)).1
  have hne_lines : ∀ l ∈ m.map renderFMEntry, l ≠ [] := by
    intro l hl
    obtain ⟨kv, hkv, rfl⟩ := List.mem_map.mp hl
    rcases kv with ⟨k, v⟩
    obtain ⟨c', t', hs', _⟩ := (renderFMEntry_line k v (hwf _ hkv)).2.2.1
    rw [hs']
    simp
  have hlast_lines : ∀ l ∈ m.map renderFMEntry, ∀ x, l.getLast? = some x →
      pyIsSpace x = false := by
    intro l hl
    obtain ⟨kv, hkv, rfl⟩ := List.mem_map.mp hl
    rcases kv with ⟨k, v⟩
    exact (renderFMEntry_line k v (hwf _ hkv)).2.2.2.1
  rw [render_frontmatter_eq]
  unfold parse_frontmatter
  rw [if_pos (show threeDashes.isPrefixOf (threeDashes ++ '\n' ::
    linesStr (m.map renderFMEntry)) = true from prefix3_intro _)]
  rw [pySplitN_render (m.map renderFMEntry) hlines]
  simp only []
  rcases m with _ | ⟨⟨k, v⟩, m'⟩
  · decide
  · obtain ⟨c, t, hshape, hc⟩ :=
      (renderFMEntry_line k v (hwf _ (List.mem_cons_self _ _))).2.2.1
    have hmap : ((k, v) :: m').map renderFMEntry = (c :: t) :: m'.map renderFMEntry := by
      rw [List.map_cons, hshape]
    rw [hmap] at hnl hne_lines hlast_lines ⊢
    have hjoin : joinNL ((c :: t) :: m'.map renderFMEntry) =
        joinStrip ((c :: t) :: m'.map renderFMEntry) ++ ['\n'] :=
      joinNL_eq _ (by simp)
    rw [hjoin]
    obtain ⟨t', hjs⟩ := joinStrip_cons_head c t (m'.map renderFMEntry)
    rw [hjs]
    rw [pyStrip_wrap c t' hc ?hlast]
    case hlast =>
      intro x hx
      rw [← hjs] at hx
      exact joinStrip_last _ (by simp) hne_lines hlast_lines x hx
    rw [← hjs]
    rw [splitChar_joinStrip _ (by simp) hnl]
    rw [← hmap]
    rw [foldl_parse ((k, v) :: m') [] hwf hnd (by intro kv hkv kv' hkv'; cases hkv')]
    rfl

/-- Claim C9 (amended) — frontmatter round-trip: rendering is injectively
invertible on well-formed metadata: if every key is nonempty, trimmed and
free of colons, newlines and triple dashes, every value is nonempty,
trimmed and free of newlines, triple dashes, double quotes and
apostrophes, and the keys are distinct, then parsing the rendered
frontmatter returns exactly the metadata with an empty body, and hence
render (parse x) = x for x = render m.  Without these conditions the law
fails (see the counterexample). -/
theorem frontmatter_roundtrip (m : List (Str × Str)) (h : WellFormedFM m) :
    parse_frontmatter (render_frontmatter m) = (m, []) ∧
    render_frontmatter (parse_frontmatter (render_frontmatter m)).1 =
      render_frontmatter m := by
  have h1 := parse_render m h
  refine ⟨h1, ?_⟩
  rw [h1]

/-- Counterexample for C9 as stated: the metadata record with key a:b
and value c renders to a frontmatter string x produced by render, yet
render (parse x) differs from x — the parser splits at the first colon
and the re-render quotes the recombined value. -/
theorem frontmatter_roundtrip_counterexample :
    render_frontmatter (parse_frontmatter (render_frontmatter
      [(lit "a:b", lit "c")])).1 ≠ render_frontmatter [(lit "a:b", lit "c")] := by
  decide

/-- Witness for C9 (amended): a typical two-entry task frontmatter is
well formed and round-trips exactly. -/
theorem frontmatter_roundtrip_witness :
    WellFormedFM [(lit "status", lit "ready"), (lit "priority", lit "P1")] ∧
    parse_frontmatter (render_frontmatter
      [(lit "status", lit "ready"), (lit "priority", lit "P1")]) =
      ([(lit "status", lit "ready"), (lit "priority", lit "P1")], []) := by
  have hwf : WellFormedFM [(lit "status", lit "ready"), (lit "priority", lit "P1")] := by
    decide
  exact ⟨hwf, (frontmatter_roundtrip _ hwf).1⟩
